import Mathlib

/-!
Verification of dlib's structural SVM graph-labeling problem
(`dlib/svm/structural_svm_graph_labeling_problem.h`).

The embedding models graphs the way the header accesses them: a sample is a
list of nodes, each node carrying a feature vector and an adjacency list of
(neighbor index, edge feature vector) pairs.  Dense feature vectors are
`List ℚ` (the header works on `dlib::matrix` column vectors of `double`;
exact rational arithmetic stands in for floating point), sparse feature
vectors are `List (ℕ × ℚ)` index/value pair sequences, as in
`dlib/svm/sparse_vector.h`.  Labels are `std::vector<node_label>` vectors of
unsigned integers, used by the header only through the test `label[i] != 0`.
-/

namespace DlibGraphLabeling

/-- A graph node as the header accesses it: `node(i).data` is the feature
vector, and the adjacency list pairs each neighbor's index
(`node(i).neighbor(n).index()`) with the edge feature vector
(`node(i).edge(n)`). -/
structure GNode (V : Type) where
  data : V
  neighbors : List (ℕ × V)

/-- A graph sample: nodes indexed `0 .. nodes.length - 1`. -/
structure GSample (V : Type) where
  nodes : List (GNode V)

/-- The boolean the header extracts from a label vector: `label[i] != 0`.
Out-of-range indices read as 0 (the header only indexes in range). -/
def lab (label : List ℕ) (i : ℕ) : Bool :=
  label.getD i 0 != 0

/-- `dlib::dot` on dense column vectors: sum of componentwise products. -/
def dotL (a b : List ℚ) : ℚ :=
  (List.zipWith (· * ·) a b).sum

/-- Inner product of a dense weight vector with a sparse vector that may
contain duplicate indices: each `(i, x)` pair contributes `w[i] * x`
(0 outside the range of `w`), duplicates summing. -/
def sdot (w : List ℚ) (v : List (ℕ × ℚ)) : ℚ :=
  (v.map (fun p => w.getD p.1 0 * p.2)).sum

/-- `set_rowm(psi, range(edge_dims, psi.size()-1)) = rowm(psi, ...) + v`:
add `v` into the node block of `psi` (entries from `edge_dims` on). -/
def addNodeBlock (edge_dims : ℕ) (psi v : List ℚ) : List ℚ :=
  List.take edge_dims psi ++ List.zipWith (· + ·) (List.drop edge_dims psi) v

/-- `set_rowm(psi, range(0, edge_dims-1)) = rowm(psi, ...) - v`:
subtract `v` from the edge block of `psi` (entries `0 .. edge_dims - 1`). -/
def subEdgeBlock (edge_dims : ℕ) (psi v : List ℚ) : List ℚ :=
  List.zipWith (· - ·) (List.take edge_dims psi) v ++ List.drop edge_dims psi

/-- Dense `get_joint_feature_vector` (the `is_matrix` overload): `psi` starts
as the zero vector of size `edge_dims + node_dims`; every node `i` with
`label[i] != 0` adds its feature vector into the node block, and every edge
`(i, j)` with `i < j` whose endpoint labels disagree subtracts its feature
vector from the edge block. -/
def get_joint_feature_vector_dense (edge_dims node_dims : ℕ)
    (sample : GSample (List ℚ)) (label : List ℕ) : List ℚ :=
  sample.nodes.enum.foldl (fun psi p =>
    p.2.neighbors.foldl (fun psi2 q =>
      if decide (p.1 < q.1) && (lab label p.1 != lab label q.1) then
        subEdgeBlock edge_dims psi2 q.2
      else psi2)
      (if lab label p.1 then addNodeBlock edge_dims psi p.2.data else psi))
    (List.replicate (edge_dims + node_dims) (0 : ℚ))

/-- `add_to_sparse_vect`: append every `(index, value)` pair of `vect`,
index shifted by `offset`, to the end of `psi`. -/
def add_to_sparse_vect (psi vect : List (ℕ × ℚ)) (offset : ℕ) : List (ℕ × ℚ) :=
  psi ++ vect.map (fun p => (p.1 + offset, p.2))

/-- `subtract_from_sparse_vect`: append every pair of `vect` with its value
negated to the end of `psi`. -/
def subtract_from_sparse_vect (psi vect : List (ℕ × ℚ)) : List (ℕ × ℚ) :=
  psi ++ vect.map (fun p => (p.1, -p.2))

/-- Sparse `get_joint_feature_vector` (the non-matrix overload): `psi` starts
empty; true-labeled nodes append their feature pairs shifted by `edge_dims`,
and disagreeing edges (visited once, `i < j`) append their pairs negated. -/
def get_joint_feature_vector_sparse (edge_dims : ℕ)
    (sample : GSample (List (ℕ × ℚ))) (label : List ℕ) : List (ℕ × ℚ) :=
  sample.nodes.enum.foldl (fun psi p =>
    p.2.neighbors.foldl (fun psi2 q =>
      if decide (p.1 < q.1) && (lab label p.1 != lab label q.1) then
        subtract_from_sparse_vect psi2 q.2
      else psi2)
      (if lab label p.1 then add_to_sparse_vect psi p.2.data edge_dims else psi))
    []

/-- Scenario A: the 3-node path graph with edges 0-1 and 1-2, every node
feature vector `[1, 0]`, every edge feature vector `[1]`.  Each undirected
edge appears in both endpoints' adjacency lists, as in a dlib graph. -/
def scenarioA : GSample (List ℚ) :=
  ⟨[⟨[1, 0], [(1, [1])]⟩,
    ⟨[1, 0], [(0, [1]), (2, [1])]⟩,
    ⟨[1, 0], [(1, [1])]⟩]⟩

/-- C1: on Scenario A (3-node path, node vectors `[1,0]`, edge vectors `[1]`,
labels `[true, true, false]`), the dense joint feature vector with
`edge_dims = 1`, `node_dims = 2` is `[-1, 2, 0]`: the edge block holds `-1`
(one disagreeing edge, 1-2) and the node block `[2, 0]` (two true nodes). -/
theorem C1_scenarioA_joint_feature_vector :
    get_joint_feature_vector_dense 1 2 scenarioA [1, 1, 0] = [-1, 2, 0] := by
  simp [get_joint_feature_vector_dense, scenarioA, lab, addNodeBlock, subEdgeBlock,
    List.enum, List.enumFrom, List.replicate]
  norm_num

/-
## The dataset validator `is_graph_labeling_problem`

The function is generic over the feature-vector representation.  A
`FeatKind` packages what the validator uses about a representation: the
compile-time flag `is_matrix<graph_type::type>::value`, the vector size
(`data.size()` / number of stored pairs), and `dlib::min` of a vector.
-/

/-- What the validator uses about a feature-vector representation:
the `is_matrix` flag, `size()`, and `min()`. -/
structure FeatKind (V : Type) where
  ismat : Bool
  size : V → ℕ
  minv : V → ℚ

/-- `dlib::min` of a dense column vector: the least entry.  The validator
only calls it on vectors it has already checked to be non-empty; the value
on `[]` is immaterial and set to 0. -/
def minMat (v : List ℚ) : ℚ :=
  match v with
  | [] => 0
  | x :: xs => xs.foldl min x

/-- Modelled from the spec: `dlib::min` of a sparse vector
(`dlib/svm/sparse_vector.h`, not under src/).  A sparse vector is implicitly
zero at unlisted indices, so the minimum over stored values starts from 0;
the validator's test `min(v) < 0` therefore rejects exactly when some stored
entry is negative, matching the spec's "any edge-feature entry is
negative". -/
def minSparse (v : List (ℕ × ℚ)) : ℚ :=
  v.foldl (fun m p => min m p.2) 0

/-- The dense (`dlib::matrix`) representation. -/
def fkDense : FeatKind (List ℚ) :=
  ⟨true, List.length, minMat⟩

/-- The sparse representation. -/
def fkSparse : FeatKind (List (ℕ × ℚ)) :=
  ⟨false, List.length, minSparse⟩

/-- Modelled from the spec: `is_learning_problem` (declared in dlib's svm
headers, not under src/) — the samples and labels sequences have equal
length and the dataset is non-empty ("the two sequences differ in length or
any learning-problem precondition fails"). -/
def is_learning_problem {V : Type} (samples : List (GSample V))
    (labels : List (List ℕ)) : Bool :=
  (samples.length == labels.length) && (samples.length != 0)

/-- Modelled from the spec: `graph_contains_length_one_cycle` (dlib's graph
utilities, not under src/) — the sample contains a self-referencing edge,
i.e. some node lists itself among its neighbors. -/
def graph_contains_length_one_cycle {V : Type} (s : GSample V) : Bool :=
  s.nodes.enum.any (fun p => p.2.neighbors.any (fun q => q.1 == p.1))

/-- The inner loop of the validator over one node's neighbor edges,
threading the `edge_dims` state (`none` encodes the initial `-1`):
reject a zero-size edge vector (dense only), reject a negative entry
(`min(edge) < 0`), assign `edge_dims` on first sight (dense), then reject a
size mismatch (dense). -/
def checkEdgeVects {V : Type} (fk : FeatKind V) :
    Option ℕ → List V → Option (Option ℕ)
  | ed, [] => some ed
  | ed, e :: rest =>
    if fk.ismat && (fk.size e == 0) then none
    else if fk.minv e < 0 then none
    else
      let ed1 := if fk.ismat && ed.isNone then some (fk.size e) else ed
      if fk.ismat && !(ed1 == some (fk.size e)) then none
      else checkEdgeVects fk ed1 rest

/-- The validator's loop over one sample's nodes, threading the
`(node_dims, edge_dims)` state: reject a zero-size node vector, assign
`node_dims` on first sight (dense), reject a node-size mismatch (dense),
then check the node's neighbor edges. -/
def checkNodes {V : Type} (fk : FeatKind V) :
    Option ℕ × Option ℕ → List (GNode V) → Option (Option ℕ × Option ℕ)
  | st, [] => some st
  | st, nd :: rest =>
    if fk.size nd.data == 0 then none
    else
      let nd1 := if fk.ismat && st.1.isNone then some (fk.size nd.data) else st.1
      if fk.ismat && !(nd1 == some (fk.size nd.data)) then none
      else
        match checkEdgeVects fk st.2 (nd.neighbors.map Prod.snd) with
        | none => none
        | some ed1 => checkNodes fk (nd1, ed1) rest

/-- The validator's outer loop over (sample, label) pairs: reject when the
label vector's length differs from the node count or the sample has a
length-one cycle, then check all nodes. -/
def checkSamples {V : Type} (fk : FeatKind V) :
    Option ℕ × Option ℕ → List (GSample V × List ℕ) →
    Option (Option ℕ × Option ℕ)
  | st, [] => some st
  | st, (s, l) :: rest =>
    if !(s.nodes.length == l.length) then none
    else if graph_contains_length_one_cycle s then none
    else
      match checkNodes fk st s.nodes with
      | none => none
      | some st1 => checkSamples fk st1 rest

/-- `is_graph_labeling_problem`: `is_learning_problem` must hold and every
per-sample, per-node and per-edge check must pass in iteration order. -/
def is_graph_labeling_problem {V : Type} (fk : FeatKind V)
    (samples : List (GSample V)) (labels : List (List ℕ)) : Bool :=
  is_learning_problem samples labels &&
    (checkSamples fk (none, none) (samples.zip labels)).isSome

/-
## Dimension inference and the problem facade
-/

/-- Modelled from the spec: `max_index_plus_one` on a dense column vector
(`dlib/svm/sparse_vector.h`, not under src/) — a dense vector of size `d`
has observed feature indices `0 .. d-1`, so one plus the maximum observed
index is `d` (and 0 for an empty vector). -/
def max_index_plus_one (v : List ℚ) : ℕ :=
  v.length

/-- The constructor's dimension-inference scan: starting from
`node_dims = 0`, `edge_dims = 0`, fold `std::max` with
`max_index_plus_one` of every node vector and of every neighbor edge
vector, in iteration order. -/
def inferDims (samples : List (GSample (List ℚ))) : ℕ × ℕ :=
  samples.foldl (fun st s =>
    s.nodes.foldl (fun st1 nd =>
      nd.neighbors.foldl (fun st2 q => (st2.1, max st2.2 (max_index_plus_one q.2)))
        (max st1.1 (max_index_plus_one nd.data), st1.2)) st) (0, 0)

/-- `get_num_edge_weights()`: returns the stored `edge_dims`. -/
def get_num_edge_weights (samples : List (GSample (List ℚ))) : ℕ :=
  (inferDims samples).2

/-- `get_num_dimensions()`: the psi/w vector begins with the edge dims and
follows with the node dims, so this returns `edge_dims + node_dims`. -/
def get_num_dimensions (samples : List (GSample (List ℚ))) : ℕ :=
  (inferDims samples).2 + (inferDims samples).1

/-
## The separation oracle

`find_max_factor_graph_potts` is an external collaborator (dlib's graph-cuts
module, out of the spec's scope), so the oracle is parameterized by an
arbitrary solver function from the Potts graph it builds to a labeling.
-/

/-- The auxiliary weighted Potts graph the oracle builds: one real potential
per node, and one weighted edge per unordered pair `i < j` present in the
sample (the `i < j` guard computes each undirected edge's weight once). -/
structure PottsGraph where
  potentials : List ℚ
  edges : List (ℕ × ℕ × ℚ)

/-- Construction of the Potts graph from `samples[idx]`, the truth labels
and the current weight vector: node `i`'s potential is the dot product of
the node-weight block `w[edge_dims ..]` with node `i`'s feature vector,
minus 1 when the truth label is true and plus 1 when it is false; the edge
`(i, j)`, `i < j`, carries the dot product of the edge-weight block
`w[0 .. edge_dims-1]` with the edge's feature vector. -/
def buildPottsGraph (edge_dims : ℕ) (w : List ℚ)
    (truth : List ℕ) (samp : GSample (List ℚ)) : PottsGraph :=
  { potentials := samp.nodes.enum.map (fun p =>
      let base := dotL (List.drop edge_dims w) p.2.data
      if lab truth p.1 then base - 1 else base + 1),
    edges := samp.nodes.enum.flatMap (fun p =>
      p.2.neighbors.filterMap (fun q =>
        if p.1 < q.1 then some (p.1, q.1, dotL (List.take edge_dims w) q.2)
        else none)) }

/-- `separation_oracle` for the dense representation, parameterized by the
external MAP solver: build the loss-augmented Potts graph, obtain a
labeling from the solver, count the label disagreements with the truth
labeling (`double loss` incremented once per mismatch), and build psi from
the returned labeling. -/
def separation_oracle (edge_dims node_dims : ℕ)
    (solver : PottsGraph → List ℕ) (samp : GSample (List ℚ))
    (truth : List ℕ) (w : List ℚ) : ℚ × List ℚ :=
  let g := buildPottsGraph edge_dims w truth samp
  let labeling := solver g
  let loss := labeling.enum.foldl (fun acc p =>
    if lab truth p.1 != (p.2 != 0) then acc + 1 else acc) (0 : ℚ)
  (loss, get_joint_feature_vector_dense edge_dims node_dims samp labeling)

/-
## Helper lemmas
-/

/-- Two label vectors with the same zero/nonzero pattern give the same
boolean label at every index. -/
theorem lab_congr {l1 l2 : List ℕ}
    (h : ∀ i, (l1.getD i 0 ≠ 0 ↔ l2.getD i 0 ≠ 0)) :
    ∀ i, lab l1 i = lab l2 i := by
  intro i
  by_cases hz : l1.getD i 0 = 0
  · have hz2 : l2.getD i 0 = 0 := by
      by_contra hc
      exact ((h i).mpr hc) hz
    simp only [lab]
    rw [hz, hz2]
  · have hz2 : l2.getD i 0 ≠ 0 := (h i).mp hz
    have e1 : (l1.getD i 0 != 0) = true := by simpa using hz
    have e2 : (l2.getD i 0 != 0) = true := by simpa using hz2
    simp only [lab]
    rw [e1, e2]

/-- An all-zero label vector reads as false everywhere. -/
theorem lab_all_zero {label : List ℕ} (h : ∀ x ∈ label, x = 0) (i : ℕ) :
    lab label i = false := by
  have hz : label.getD i 0 = 0 := by
    by_cases hi : i < label.length
    · rw [List.getD_eq_getElem _ _ hi]
      exact h _ (List.getElem_mem hi)
    · exact List.getD_eq_default _ _ (le_of_not_lt hi)
  simp only [lab]
  rw [hz]
  simp

/-- A left fold whose body never changes the accumulator returns the
initial value. -/
theorem foldl_of_fixed {α β : Type _} {f : α → β → α} :
    ∀ (l : List β) (a : α), (∀ acc : α, ∀ b ∈ l, f acc b = acc) → l.foldl f a = a
  | [], _, _ => rfl
  | b :: l, a, h => by
    rw [List.foldl_cons, h a b (List.mem_cons_self b l)]
    exact foldl_of_fixed l a (fun acc b' hb => h acc b' (List.mem_cons_of_mem _ hb))

/-- The inner product of any vector with an all-zero vector is 0. -/
theorem dotL_replicate_zero : ∀ (w : List ℚ) (n : ℕ),
    dotL w (List.replicate n 0) = 0
  | [], _ => by simp [dotL]
  | _ :: _, 0 => by simp [dotL]
  | x :: w, n + 1 => by
    simp only [dotL, List.replicate_succ, List.zipWith_cons_cons, List.sum_cons, mul_zero,
      zero_add]
    exact dotL_replicate_zero w n

/-- A conditional-increment fold counts the elements satisfying the test. -/
theorem foldl_count_mismatch (truth : List ℕ) :
    ∀ (l : List (ℕ × ℕ)) (c : ℚ),
    l.foldl (fun acc p => if lab truth p.1 != (p.2 != 0) then acc + 1 else acc) c
      = c + ((l.countP fun p => lab truth p.1 != (p.2 != 0) : ℕ) : ℚ)
  | [], c => by simp
  | p :: l, c => by
    rw [List.foldl_cons, List.countP_cons]
    by_cases h : (lab truth p.1 != (p.2 != 0)) = true
    · rw [if_pos h, foldl_count_mismatch truth l (c + 1), if_pos h]
      push_cast
      ring
    · rw [if_neg h, foldl_count_mismatch truth l c, if_neg h]
      simp

/-- Counting over an enumerated list equals counting matching indices. -/
theorem countP_enumFrom_eq (f : ℕ → ℕ → Bool) :
    ∀ (l : List ℕ) (k : ℕ),
    (List.enumFrom k l).countP (fun p => f p.1 p.2)
      = (List.range l.length).countP (fun i => f (k + i) (l.getD i 0))
  | [], _ => by simp
  | x :: l, k => by
    rw [List.enumFrom_cons, List.countP_cons, countP_enumFrom_eq f l (k + 1),
      List.length_cons, List.range_succ_eq_map, List.countP_cons, List.countP_map]
    congr 1
    refine List.countP_congr ?_
    intro i _
    have hk : k + 1 + i = k + (i + 1) := by omega
    simp [Function.comp, List.getD_cons_succ, hk]

/-
## C3, C4, C8, C10
-/

/-- C3: the loss returned by `separation_oracle` equals the number of nodes
at which the solver's labeling disagrees with the truth labeling; hence it
lies between 0 and the node count, and is 0 exactly when the returned
labeling matches the truth labeling on every node. -/
theorem C3_separation_oracle_loss (edge_dims node_dims : ℕ)
    (solver : PottsGraph → List ℕ) (samp : GSample (List ℚ))
    (truth : List ℕ) (w : List ℚ)
    (hlen : (solver (buildPottsGraph edge_dims w truth samp)).length
      = samp.nodes.length) :
    (separation_oracle edge_dims node_dims solver samp truth w).1
      = ((List.range samp.nodes.length).countP (fun i =>
          lab truth i != lab (solver (buildPottsGraph edge_dims w truth samp)) i) : ℕ)
    ∧ 0 ≤ (separation_oracle edge_dims node_dims solver samp truth w).1
    ∧ (separation_oracle edge_dims node_dims solver samp truth w).1
        ≤ (samp.nodes.length : ℚ)
    ∧ ((separation_oracle edge_dims node_dims solver samp truth w).1 = 0
        ↔ ∀ i < samp.nodes.length,
            lab truth i
              = lab (solver (buildPottsGraph edge_dims w truth samp)) i) := by
  have hloss : (separation_oracle edge_dims node_dims solver samp truth w).1
      = ((List.range samp.nodes.length).countP (fun i =>
          lab truth i != lab (solver (buildPottsGraph edge_dims w truth samp)) i) : ℕ) := by
    simp only [separation_oracle]
    rw [foldl_count_mismatch, zero_add]
    have h2 := countP_enumFrom_eq
      (fun i v => lab truth i != (v != 0))
      (solver (buildPottsGraph edge_dims w truth samp)) 0
    rw [List.enum_eq_enumFrom, h2, hlen]
    norm_cast
    refine List.countP_congr ?_
    intro i _
    simp [lab]
  refine ⟨hloss, ?_, ?_, ?_⟩
  · rw [hloss]
    exact Nat.cast_nonneg _
  · rw [hloss]
    have hle : ((List.range samp.nodes.length).countP (fun i =>
        lab truth i != lab (solver (buildPottsGraph edge_dims w truth samp)) i))
        ≤ samp.nodes.length := by
      have := List.countP_le_length (l := List.range samp.nodes.length)
        (p := fun i => lab truth i != lab (solver (buildPottsGraph edge_dims w truth samp)) i)
      simpa using this
    exact_mod_cast hle
  · rw [hloss]
    rw [show (((List.range samp.nodes.length).countP (fun i =>
        lab truth i != lab (solver (buildPottsGraph edge_dims w truth samp)) i) : ℕ) : ℚ) = 0
        ↔ ((List.range samp.nodes.length).countP (fun i =>
        lab truth i != lab (solver (buildPottsGraph edge_dims w truth samp)) i)) = 0
      from Nat.cast_eq_zero]
    rw [List.countP_eq_zero]
    constructor
    · intro hall i hi
      have := hall i (List.mem_range.mpr hi)
      simpa using this
    · intro hall i hi
      have := hall i (List.mem_range.mp hi)
      simpa using this

/-- C3 witness: a concrete instantiation on Scenario A with a constant
solver returning `[0, 1, 0]`. -/
theorem C3_separation_oracle_loss_witness :
    (separation_oracle 1 2 (fun _ => [0, 1, 0]) scenarioA [1, 1, 0] [0, 1, 0]).1
      = ((List.range scenarioA.nodes.length).countP (fun i =>
          lab [1, 1, 0] i
            != lab ((fun (_ : PottsGraph) => [0, 1, 0])
                (buildPottsGraph 1 [0, 1, 0] [1, 1, 0] scenarioA)) i) : ℕ)
    ∧ 0 ≤ (separation_oracle 1 2 (fun _ => [0, 1, 0]) scenarioA [1, 1, 0] [0, 1, 0]).1
    ∧ (separation_oracle 1 2 (fun _ => [0, 1, 0]) scenarioA [1, 1, 0] [0, 1, 0]).1
        ≤ (scenarioA.nodes.length : ℚ)
    ∧ ((separation_oracle 1 2 (fun _ => [0, 1, 0]) scenarioA [1, 1, 0] [0, 1, 0]).1 = 0
        ↔ ∀ i < scenarioA.nodes.length,
            lab [1, 1, 0] i
              = lab ((fun (_ : PottsGraph) => [0, 1, 0])
                  (buildPottsGraph 1 [0, 1, 0] [1, 1, 0] scenarioA)) i) :=
  C3_separation_oracle_loss 1 2 (fun _ => [0, 1, 0]) scenarioA [1, 1, 0] [0, 1, 0] rfl

/-- C4: in the Potts graph built by `separation_oracle`, node `i`'s
potential is the dot product of the node-weight block of the weight vector
with node `i`'s feature vector, minus 1 when the truth label is true and
plus 1 when it is false. -/
theorem C4_potts_node_potential (edge_dims node_dims : ℕ) (w : List ℚ)
    (truth : List ℕ) (samp : GSample (List ℚ)) (i : ℕ)
    (hi : i < samp.nodes.length) (hw : w.length = edge_dims + node_dims) :
    (buildPottsGraph edge_dims w truth samp).potentials.getD i 0
      = dotL (List.drop edge_dims w) (samp.nodes.getD i ⟨[], []⟩).data
        + (if lab truth i then -1 else 1) := by
  have hlen : i < ((buildPottsGraph edge_dims w truth samp).potentials).length := by
    simp [buildPottsGraph, hi]
  rw [List.getD_eq_getElem _ _ hlen, List.getD_eq_getElem _ _ hi]
  simp only [buildPottsGraph, List.getElem_map, List.getElem_enum]
  by_cases h : lab truth i = true
  · rw [if_pos h, if_pos h]
    ring
  · rw [if_neg h, if_neg h]

/-- C4 witness: concrete instantiation on Scenario A, node 0. -/
theorem C4_potts_node_potential_witness :
    (buildPottsGraph 1 [0, 1, 0] [1, 1, 0] scenarioA).potentials.getD 0 0
      = dotL (List.drop 1 [0, 1, 0]) ((scenarioA.nodes.getD 0 ⟨[], []⟩).data)
        + (if lab [1, 1, 0] 0 then -1 else 1) :=
  C4_potts_node_potential 1 2 [0, 1, 0] [1, 1, 0] scenarioA 0
    (by simp [scenarioA]) (by simp)

/-- C8: the separation oracle is a pure function of the sample, truth
labeling and weight vector: given MAP solvers that agree on the Potts graph
the oracle builds (determinism of the external solver), two calls return
the same loss and feature vector, hence the same inner product against the
weight vector. -/
theorem C8_separation_oracle_deterministic (edge_dims node_dims : ℕ)
    (solver1 solver2 : PottsGraph → List ℕ) (samp : GSample (List ℚ))
    (truth : List ℕ) (w : List ℚ)
    (h : solver1 (buildPottsGraph edge_dims w truth samp)
      = solver2 (buildPottsGraph edge_dims w truth samp)) :
    separation_oracle edge_dims node_dims solver1 samp truth w
      = separation_oracle edge_dims node_dims solver2 samp truth w
    ∧ dotL w (separation_oracle edge_dims node_dims solver1 samp truth w).2
      = dotL w (separation_oracle edge_dims node_dims solver2 samp truth w).2 := by
  have he : separation_oracle edge_dims node_dims solver1 samp truth w
      = separation_oracle edge_dims node_dims solver2 samp truth w := by
    simp only [separation_oracle, h]
  exact ⟨he, by rw [he]⟩

/-- C8 witness: two (equal) constant solvers on Scenario A. -/
theorem C8_separation_oracle_deterministic_witness :
    separation_oracle 1 2 (fun _ => [0, 1, 0]) scenarioA [1, 1, 0] [0, 1, 0]
      = separation_oracle 1 2 (fun _ => [0, 1, 0]) scenarioA [1, 1, 0] [0, 1, 0]
    ∧ dotL [0, 1, 0]
        (separation_oracle 1 2 (fun _ => [0, 1, 0]) scenarioA [1, 1, 0] [0, 1, 0]).2
      = dotL [0, 1, 0]
        (separation_oracle 1 2 (fun _ => [0, 1, 0]) scenarioA [1, 1, 0] [0, 1, 0]).2 :=
  C8_separation_oracle_deterministic 1 2 (fun _ => [0, 1, 0]) (fun _ => [0, 1, 0])
    scenarioA [1, 1, 0] [0, 1, 0] rfl

/-- C10: the all-false labeling yields the identity feature vector: the
dense joint feature vector is the zero vector of length
`edge_dims + node_dims`, the sparse one is empty, and either inner product
with any weight vector is 0. -/
theorem C10_all_false_labeling (edge_dims node_dims : ℕ)
    (s : GSample (List ℚ)) (s2 : GSample (List (ℕ × ℚ)))
    (label : List ℕ) (w : List ℚ) (h : ∀ x ∈ label, x = 0) :
    get_joint_feature_vector_dense edge_dims node_dims s label
      = List.replicate (edge_dims + node_dims) 0
    ∧ get_joint_feature_vector_sparse edge_dims s2 label = []
    ∧ dotL w (get_joint_feature_vector_dense edge_dims node_dims s label) = 0
    ∧ sdot w (get_joint_feature_vector_sparse edge_dims s2 label) = 0 := by
  have hl := lab_all_zero h
  have hd : get_joint_feature_vector_dense edge_dims node_dims s label
      = List.replicate (edge_dims + node_dims) 0 := by
    unfold get_joint_feature_vector_dense
    refine foldl_of_fixed _ _ ?_
    intro acc p _
    have h1 : (if lab label p.1 then addNodeBlock edge_dims acc p.2.data else acc)
        = acc := by simp [hl]
    rw [h1]
    refine foldl_of_fixed _ _ ?_
    intro acc2 q _
    simp [hl]
  have hs : get_joint_feature_vector_sparse edge_dims s2 label = [] := by
    unfold get_joint_feature_vector_sparse
    refine foldl_of_fixed _ _ ?_
    intro acc p _
    have h1 : (if lab label p.1 then add_to_sparse_vect acc p.2.data edge_dims else acc)
        = acc := by simp [hl]
    rw [h1]
    refine foldl_of_fixed _ _ ?_
    intro acc2 q _
    simp [hl]
  refine ⟨hd, hs, ?_, ?_⟩
  · rw [hd]
    exact dotL_replicate_zero w _
  · rw [hs]
    simp [sdot]

/-- C10 witness: Scenario A's graph with the all-zero labeling. -/
theorem C10_all_false_labeling_witness :
    get_joint_feature_vector_dense 1 2 scenarioA [0, 0, 0]
      = List.replicate (1 + 2) 0
    ∧ get_joint_feature_vector_sparse 1 ⟨[]⟩ [0, 0, 0] = []
    ∧ dotL [0, 1, 0] (get_joint_feature_vector_dense 1 2 scenarioA [0, 0, 0]) = 0
    ∧ sdot [0, 1, 0] (get_joint_feature_vector_sparse 1 ⟨[]⟩ [0, 0, 0]) = 0 :=
  C10_all_false_labeling 1 2 scenarioA ⟨[]⟩ [0, 0, 0] [0, 1, 0] (by decide)

/-
## C9: the code reads labels only through the zero/nonzero test
-/

/-- C9: replacing label values while preserving which entries are nonzero
leaves the dense and sparse joint feature vectors and the whole separation
oracle result (hence its loss) unchanged. -/
theorem C9_label_zero_nonzero_invariance (edge_dims node_dims : ℕ)
    (s : GSample (List ℚ)) (s2 : GSample (List (ℕ × ℚ)))
    (solver : PottsGraph → List ℕ) (w : List ℚ) (l1 l2 : List ℕ)
    (hlen : l1.length = l2.length)
    (h : ∀ i, (l1.getD i 0 ≠ 0 ↔ l2.getD i 0 ≠ 0)) :
    get_joint_feature_vector_dense edge_dims node_dims s l1
      = get_joint_feature_vector_dense edge_dims node_dims s l2
    ∧ get_joint_feature_vector_sparse edge_dims s2 l1
      = get_joint_feature_vector_sparse edge_dims s2 l2
    ∧ separation_oracle edge_dims node_dims solver s l1 w
      = separation_oracle edge_dims node_dims solver s l2 w := by
  have hl := lab_congr h
  have hpotts : buildPottsGraph edge_dims w l1 s = buildPottsGraph edge_dims w l2 s := by
    unfold buildPottsGraph
    congr 1
    refine List.map_congr_left ?_
    intro p _
    simp only [hl]
  have hdense : get_joint_feature_vector_dense edge_dims node_dims s l1
      = get_joint_feature_vector_dense edge_dims node_dims s l2 := by
    unfold get_joint_feature_vector_dense
    refine List.foldl_ext _ _ _ ?_
    intro acc p _
    simp only [hl]
  have hsparse : get_joint_feature_vector_sparse edge_dims s2 l1
      = get_joint_feature_vector_sparse edge_dims s2 l2 := by
    unfold get_joint_feature_vector_sparse
    refine List.foldl_ext _ _ _ ?_
    intro acc p _
    simp only [hl]
  refine ⟨hdense, hsparse, ?_⟩
  unfold separation_oracle
  rw [hpotts]
  refine congrArg₂ Prod.mk ?_ rfl
  refine List.foldl_ext _ _ _ ?_
  intro acc p _
  simp only [hl]

/-- C9 witness: labels `[1, 1, 0]` and `[2, 5, 0]` have the same nonzero
pattern, so Scenario A's feature vectors and oracle output agree. -/
theorem C9_label_zero_nonzero_invariance_witness :
    get_joint_feature_vector_dense 1 2 scenarioA [1, 1, 0]
      = get_joint_feature_vector_dense 1 2 scenarioA [2, 5, 0]
    ∧ get_joint_feature_vector_sparse 1 (⟨[]⟩ : GSample (List (ℕ × ℚ))) [1, 1, 0]
      = get_joint_feature_vector_sparse 1 (⟨[]⟩ : GSample (List (ℕ × ℚ))) [2, 5, 0]
    ∧ separation_oracle 1 2 (fun _ => [0, 1, 0]) scenarioA [1, 1, 0] [0, 1, 0]
      = separation_oracle 1 2 (fun _ => [0, 1, 0]) scenarioA [2, 5, 0] [0, 1, 0] :=
  C9_label_zero_nonzero_invariance 1 2 scenarioA ⟨[]⟩ (fun _ => [0, 1, 0])
    [0, 1, 0] [1, 1, 0] [2, 5, 0] rfl (by
      intro i
      rcases i with _ | _ | _ | n
      · simp
      · simp
      · simp
      · have e1 : List.getD [1, 1, 0] (n + 3) 0 = 0 :=
          List.getD_eq_default _ _ (by simp only [List.length_cons, List.length_nil]; omega)
        have e2 : List.getD [2, 5, 0] (n + 3) 0 = 0 :=
          List.getD_eq_default _ _ (by simp only [List.length_cons, List.length_nil]; omega)
        rw [e1, e2])

/-
## C7: dimension inference
-/

/-- All node feature vectors of the dataset, in iteration order. -/
def nodeVecsOf (samples : List (GSample (List ℚ))) : List (List ℚ) :=
  samples.flatMap (fun s => s.nodes.map (fun nd => nd.data))

/-- All edge feature vectors of the dataset (one per neighbor slot), in
iteration order. -/
def edgeVecsOf (samples : List (GSample (List ℚ))) : List (List ℚ) :=
  samples.flatMap (fun s => s.nodes.flatMap (fun nd => nd.neighbors.map (fun q => q.2)))

/-- Stated from the spec's words: the feature indices observed across all
node vectors (a dense vector of size `d` exhibits indices `0 .. d-1`). -/
def observedNodeIdxs (samples : List (GSample (List ℚ))) : List ℕ :=
  (nodeVecsOf samples).flatMap (fun v => List.range v.length)

/-- Stated from the spec's words: the feature indices observed across all
edge vectors. -/
def observedEdgeIdxs (samples : List (GSample (List ℚ))) : List ℕ :=
  (edgeVecsOf samples).flatMap (fun v => List.range v.length)

/-- One plus the maximum of a list of indices, 0 when there are none. -/
def onePlusMax (l : List ℕ) : ℕ :=
  l.foldr (fun i a => max (i + 1) a) 0

theorem inferDims_neighbors_fold (qs : List (ℕ × List ℚ)) :
    ∀ st : ℕ × ℕ,
    qs.foldl (fun st2 q => (st2.1, max st2.2 (max_index_plus_one q.2))) st
      = (st.1, (qs.map (fun q => q.2.length)).foldl max st.2) := by
  induction qs with
  | nil => intro st; rfl
  | cons q qs ih =>
    intro st
    rw [List.foldl_cons, ih, List.map_cons, List.foldl_cons]
    dsimp only [max_index_plus_one]

theorem inferDims_nodes_fold (ns : List (GNode (List ℚ))) :
    ∀ st : ℕ × ℕ,
    ns.foldl (fun st1 nd =>
        nd.neighbors.foldl (fun st2 q => (st2.1, max st2.2 (max_index_plus_one q.2)))
          (max st1.1 (max_index_plus_one nd.data), st1.2)) st
      = ((ns.map (fun nd => nd.data.length)).foldl max st.1,
         (ns.flatMap (fun nd => nd.neighbors.map (fun q => q.2.length))).foldl max st.2) := by
  induction ns with
  | nil => intro st; rfl
  | cons nd ns ih =>
    intro st
    rw [List.foldl_cons, inferDims_neighbors_fold, ih, List.map_cons, List.foldl_cons,
      List.flatMap_cons, List.foldl_append]
    dsimp only [max_index_plus_one]

theorem inferDims_eq (samples : List (GSample (List ℚ))) :
    inferDims samples
      = (((nodeVecsOf samples).map List.length).foldl max 0,
         ((edgeVecsOf samples).map List.length).foldl max 0) := by
  suffices hgen : ∀ st : ℕ × ℕ,
      samples.foldl (fun st s =>
        s.nodes.foldl (fun st1 nd =>
          nd.neighbors.foldl (fun st2 q => (st2.1, max st2.2 (max_index_plus_one q.2)))
            (max st1.1 (max_index_plus_one nd.data), st1.2)) st) st
        = (((nodeVecsOf samples).map List.length).foldl max st.1,
           ((edgeVecsOf samples).map List.length).foldl max st.2) by
    exact hgen (0, 0)
  induction samples with
  | nil => intro st; rfl
  | cons s samples ih =>
    intro st
    rw [List.foldl_cons, inferDims_nodes_fold, ih]
    unfold nodeVecsOf edgeVecsOf
    simp only [List.flatMap_cons, List.map_append, List.foldl_append, List.map_map,
      List.map_flatMap, Function.comp_def]

theorem foldl_max_shift (l : List ℕ) :
    ∀ a : ℕ, l.foldl max a = max a (l.foldl max 0) := by
  induction l with
  | nil => intro a; simp
  | cons x l ih =>
    intro a
    rw [List.foldl_cons, List.foldl_cons, ih (max a x), ih (max 0 x), Nat.zero_max,
      ← Nat.max_assoc]

theorem range_foldr_onePlus (d : ℕ) :
    ∀ a : ℕ, (List.range d).foldr (fun i acc => max (i + 1) acc) a = max d a := by
  induction d with
  | zero => intro a; simp
  | succ d ih =>
    intro a
    rw [List.range_succ, List.foldr_append, ih]
    simp only [List.foldr_cons, List.foldr_nil]
    rw [← Nat.max_assoc]
    congr 1
    exact Nat.max_eq_right (Nat.le_succ d)

theorem onePlusMax_flatRange (vs : List (List ℚ)) :
    onePlusMax (vs.flatMap (fun v => List.range v.length))
      = (vs.map List.length).foldl max 0 := by
  induction vs with
  | nil => rfl
  | cons v vs ih =>
    unfold onePlusMax at ih ⊢
    rw [List.flatMap_cons, List.foldr_append, ih, range_foldr_onePlus, List.map_cons,
      List.foldl_cons, Nat.zero_max, foldl_max_shift (List.map List.length vs) v.length]

theorem onePlusMax_of_ne_nil : ∀ (l : List ℕ), l ≠ [] →
    onePlusMax l = l.foldr max 0 + 1
  | [], h => absurd rfl h
  | [x], _ => by simp [onePlusMax]
  | x :: y :: l, _ => by
    have ih := onePlusMax_of_ne_nil (y :: l) (by simp)
    unfold onePlusMax at ih ⊢
    rw [List.foldr_cons, ih, List.foldr_cons]
    exact Nat.succ_max_succ x _

/-- C7: after construction, `node_dims` is one plus the maximum observed
node-feature index, `edge_dims` is one plus the maximum observed
edge-feature index (each 0 when no index is observed),
`get_num_dimensions()` returns `edge_dims + node_dims` and
`get_num_edge_weights()` returns `edge_dims`.  In this pure embedding the
values are functions of the dataset alone, so they cannot change during
the problem's lifetime. -/
theorem C7_dimension_inference (samples : List (GSample (List ℚ))) :
    (observedNodeIdxs samples ≠ [] →
      (inferDims samples).1 = (observedNodeIdxs samples).foldr max 0 + 1)
    ∧ (observedNodeIdxs samples = [] → (inferDims samples).1 = 0)
    ∧ (observedEdgeIdxs samples ≠ [] →
      (inferDims samples).2 = (observedEdgeIdxs samples).foldr max 0 + 1)
    ∧ (observedEdgeIdxs samples = [] → (inferDims samples).2 = 0)
    ∧ get_num_dimensions samples = (inferDims samples).2 + (inferDims samples).1
    ∧ get_num_edge_weights samples = (inferDims samples).2 := by
  have keyN : (inferDims samples).1 = onePlusMax (observedNodeIdxs samples) := by
    rw [inferDims_eq]
    unfold observedNodeIdxs
    rw [onePlusMax_flatRange]
  have keyE : (inferDims samples).2 = onePlusMax (observedEdgeIdxs samples) := by
    rw [inferDims_eq]
    unfold observedEdgeIdxs
    rw [onePlusMax_flatRange]
  refine ⟨?_, ?_, ?_, ?_, rfl, rfl⟩
  · intro hne
    rw [keyN, onePlusMax_of_ne_nil _ hne]
  · intro hnil
    rw [keyN, hnil]
    rfl
  · intro hne
    rw [keyE, onePlusMax_of_ne_nil _ hne]
  · intro hnil
    rw [keyE, hnil]
    rfl

/-- C7 witness: concrete instantiation on Scenario A's dataset. -/
theorem C7_dimension_inference_witness :
    (inferDims [scenarioA]).1 = (observedNodeIdxs [scenarioA]).foldr max 0 + 1
    ∧ (inferDims [scenarioA]).2 = (observedEdgeIdxs [scenarioA]).foldr max 0 + 1
    ∧ get_num_dimensions [scenarioA] = (inferDims [scenarioA]).2 + (inferDims [scenarioA]).1
    ∧ get_num_edge_weights [scenarioA] = (inferDims [scenarioA]).2 :=
  ⟨(C7_dimension_inference [scenarioA]).1 (by decide),
   (C7_dimension_inference [scenarioA]).2.2.1 (by decide),
   (C7_dimension_inference [scenarioA]).2.2.2.2.1,
   (C7_dimension_inference [scenarioA]).2.2.2.2.2⟩

/-
## C2: dense and sparse joint feature vectors agree under inner products

A dense sample is rendered sparse by listing every entry with its index
(`toSparseSample`); the refinement theorem compares the dense accumulation
with the sparse accumulation on the rendered sample.
-/

/-- A dense vector as a sparse index/value list: every entry paired with
its index. -/
def toSparseVect (v : List ℚ) : List (ℕ × ℚ) :=
  v.enum

/-- A dense node rendered sparse. -/
def toSparseNode (nd : GNode (List ℚ)) : GNode (List (ℕ × ℚ)) :=
  ⟨toSparseVect nd.data, nd.neighbors.map (fun q => (q.1, toSparseVect q.2))⟩

/-- A dense sample rendered sparse. -/
def toSparseSample (s : GSample (List ℚ)) : GSample (List (ℕ × ℚ)) :=
  ⟨s.nodes.map toSparseNode⟩

theorem dotL_nil_right (a : List ℚ) : dotL a [] = 0 := by
  cases a <;> simp [dotL]

theorem dotL_cons (x y : ℚ) (a b : List ℚ) :
    dotL (x :: a) (y :: b) = x * y + dotL a b := by
  simp [dotL]

theorem dotL_split (k : ℕ) (a b : List ℚ) :
    dotL a b = dotL (a.take k) (b.take k) + dotL (a.drop k) (b.drop k) := by
  unfold dotL
  conv_lhs => rw [← List.take_append_drop k (List.zipWith (· * ·) a b)]
  rw [List.sum_append, List.take_zipWith, List.drop_zipWith]

theorem dotL_zipWith_add (a : List ℚ) : ∀ (b c : List ℚ), b.length = c.length →
    dotL a (List.zipWith (· + ·) b c) = dotL a b + dotL a c := by
  induction a with
  | nil => intro b c _; simp [dotL]
  | cons x a ih =>
    intro b c h
    cases b with
    | nil =>
      cases c with
      | nil => simp [dotL]
      | cons z c => simp at h
    | cons y b =>
      cases c with
      | nil => simp at h
      | cons z c =>
        rw [List.zipWith_cons_cons, dotL_cons, dotL_cons, dotL_cons,
          ih b c (by simpa using h)]
        ring

theorem dotL_zipWith_sub (a : List ℚ) : ∀ (b c : List ℚ), b.length = c.length →
    dotL a (List.zipWith (· - ·) b c) = dotL a b - dotL a c := by
  induction a with
  | nil => intro b c _; simp [dotL]
  | cons x a ih =>
    intro b c h
    cases b with
    | nil =>
      cases c with
      | nil => simp [dotL]
      | cons z c => simp at h
    | cons y b =>
      cases c with
      | nil => simp at h
      | cons z c =>
        rw [List.zipWith_cons_cons, dotL_cons, dotL_cons, dotL_cons,
          ih b c (by simpa using h)]
        ring

theorem dotL_take_of_le (k : ℕ) (w : List ℚ) : ∀ (u : List ℚ), u.length ≤ k →
    dotL (w.take k) u = dotL w u := by
  induction w generalizing k with
  | nil => intro u _; simp
  | cons y w ih =>
    intro u hu
    cases u with
    | nil => rw [dotL_nil_right, dotL_nil_right]
    | cons x u =>
      cases k with
      | zero => simp at hu
      | succ k =>
        rw [List.take_succ_cons, dotL_cons, dotL_cons, ih k u (by simpa using hu)]

theorem length_addNodeBlock (edge_dims node_dims : ℕ) (psi v : List ℚ)
    (hpsi : psi.length = edge_dims + node_dims) (hv : v.length = node_dims) :
    (addNodeBlock edge_dims psi v).length = edge_dims + node_dims := by
  unfold addNodeBlock
  rw [List.length_append, List.length_take, List.length_zipWith, List.length_drop,
    hpsi, hv]
  omega

theorem length_subEdgeBlock (edge_dims node_dims : ℕ) (psi e : List ℚ)
    (hpsi : psi.length = edge_dims + node_dims) (he : e.length = edge_dims) :
    (subEdgeBlock edge_dims psi e).length = edge_dims + node_dims := by
  unfold subEdgeBlock
  rw [List.length_append, List.length_zipWith, List.length_take, List.length_drop,
    hpsi, he]
  omega

theorem dotL_addNodeBlock (edge_dims node_dims : ℕ) (w psi v : List ℚ)
    (hpsi : psi.length = edge_dims + node_dims) (hv : v.length = node_dims) :
    dotL w (addNodeBlock edge_dims psi v)
      = dotL w psi + dotL (w.drop edge_dims) v := by
  unfold addNodeBlock
  have htk : (psi.take edge_dims).length = edge_dims := by
    rw [List.length_take]
    omega
  rw [dotL_split edge_dims w (psi.take edge_dims
      ++ List.zipWith (· + ·) (psi.drop edge_dims) v)]
  rw [List.take_left' htk, List.drop_left' htk]
  rw [dotL_zipWith_add _ _ _ (by rw [List.length_drop, hpsi, hv]; omega)]
  rw [dotL_split edge_dims w psi]
  ring

theorem dotL_subEdgeBlock (edge_dims node_dims : ℕ) (w psi e : List ℚ)
    (hpsi : psi.length = edge_dims + node_dims) (he : e.length = edge_dims) :
    dotL w (subEdgeBlock edge_dims psi e)
      = dotL w psi - dotL (w.take edge_dims) e := by
  unfold subEdgeBlock
  have htk : (List.zipWith (· - ·) (psi.take edge_dims) e).length = edge_dims := by
    rw [List.length_zipWith, List.length_take]
    omega
  rw [dotL_split edge_dims w (List.zipWith (· - ·) (psi.take edge_dims) e
      ++ psi.drop edge_dims)]
  rw [List.take_left' htk, List.drop_left' htk]
  rw [dotL_zipWith_sub _ _ _ (by rw [List.length_take]; omega)]
  rw [dotL_split edge_dims w psi]
  ring

/-- The per-node contribution to the inner product of a weight vector with
the joint feature vector: the node-block dot product when the node's label
is true, minus the edge-block dot products of its disagreeing `i < j`
neighbor edges. -/
def nodeEdgeTerm (edge_dims : ℕ) (w : List ℚ) (label : List ℕ)
    (p : ℕ × GNode (List ℚ)) : ℚ :=
  (if lab label p.1 then dotL (List.drop edge_dims w) p.2.data else 0)
    - (p.2.neighbors.map (fun q =>
        if decide (p.1 < q.1) && (lab label p.1 != lab label q.1)
        then dotL (List.take edge_dims w) q.2 else 0)).sum

theorem dense_inner_fold (edge_dims node_dims : ℕ) (w : List ℚ) (label : List ℕ)
    (i : ℕ) :
    ∀ (qs : List (ℕ × List ℚ)) (psi : List ℚ),
      psi.length = edge_dims + node_dims →
      (∀ q ∈ qs, q.2.length = edge_dims) →
      (qs.foldl (fun psi2 q =>
          if decide (i < q.1) && (lab label i != lab label q.1)
          then subEdgeBlock edge_dims psi2 q.2 else psi2) psi).length
        = edge_dims + node_dims
      ∧ dotL w (qs.foldl (fun psi2 q =>
          if decide (i < q.1) && (lab label i != lab label q.1)
          then subEdgeBlock edge_dims psi2 q.2 else psi2) psi)
        = dotL w psi - (qs.map (fun q =>
            if decide (i < q.1) && (lab label i != lab label q.1)
            then dotL (List.take edge_dims w) q.2 else 0)).sum := by
  intro qs
  induction qs with
  | nil =>
    intro psi hpsi _
    exact ⟨hpsi, by simp⟩
  | cons q qs ih =>
    intro psi hpsi hq
    have hqe : q.2.length = edge_dims := hq q (List.mem_cons_self _ _)
    have hrest : ∀ r ∈ qs, r.2.length = edge_dims :=
      fun r hr => hq r (List.mem_cons_of_mem _ hr)
    by_cases hc : (decide (i < q.1) && (lab label i != lab label q.1)) = true
    · rw [List.foldl_cons, if_pos hc, List.map_cons, if_pos hc, List.sum_cons]
      have hlen := length_subEdgeBlock edge_dims node_dims psi q.2 hpsi hqe
      obtain ⟨h1, h2⟩ := ih (subEdgeBlock edge_dims psi q.2) hlen hrest
      refine ⟨h1, ?_⟩
      rw [h2, dotL_subEdgeBlock edge_dims node_dims w psi q.2 hpsi hqe]
      ring
    · rw [List.foldl_cons, if_neg hc, List.map_cons, if_neg hc, List.sum_cons]
      obtain ⟨h1, h2⟩ := ih psi hpsi hrest
      refine ⟨h1, ?_⟩
      rw [h2]
      ring

theorem dense_outer_fold (edge_dims node_dims : ℕ) (w : List ℚ) (label : List ℕ) :
    ∀ (ps : List (ℕ × GNode (List ℚ))) (psi : List ℚ),
      psi.length = edge_dims + node_dims →
      (∀ p ∈ ps, p.2.data.length = node_dims) →
      (∀ p ∈ ps, ∀ q ∈ p.2.neighbors, q.2.length = edge_dims) →
      dotL w (ps.foldl (fun psi p =>
          p.2.neighbors.foldl (fun psi2 q =>
            if decide (p.1 < q.1) && (lab label p.1 != lab label q.1)
            then subEdgeBlock edge_dims psi2 q.2 else psi2)
            (if lab label p.1 then addNodeBlock edge_dims psi p.2.data else psi)) psi)
        = dotL w psi + (ps.map (nodeEdgeTerm edge_dims w label)).sum := by
  intro ps
  induction ps with
  | nil =>
    intro psi _ _ _
    simp
  | cons p ps ih =>
    intro psi hpsi hnode hedge
    have hpd : p.2.data.length = node_dims := hnode p (List.mem_cons_self _ _)
    have hpe : ∀ q ∈ p.2.neighbors, q.2.length = edge_dims :=
      hedge p (List.mem_cons_self _ _)
    have hinit : (if lab label p.1
        then addNodeBlock edge_dims psi p.2.data else psi).length
        = edge_dims + node_dims := by
      by_cases hc : lab label p.1 = true
      · rw [if_pos hc]
        exact length_addNodeBlock edge_dims node_dims psi p.2.data hpsi hpd
      · rw [if_neg hc]
        exact hpsi
    have hdinit : dotL w (if lab label p.1
        then addNodeBlock edge_dims psi p.2.data else psi)
        = dotL w psi
          + (if lab label p.1 then dotL (List.drop edge_dims w) p.2.data else 0) := by
      by_cases hc : lab label p.1 = true
      · rw [if_pos hc, if_pos hc]
        exact dotL_addNodeBlock edge_dims node_dims w psi p.2.data hpsi hpd
      · rw [if_neg hc, if_neg hc]
        ring
    obtain ⟨hil, hid⟩ := dense_inner_fold edge_dims node_dims w label p.1
      p.2.neighbors
      (if lab label p.1 then addNodeBlock edge_dims psi p.2.data else psi) hinit hpe
    rw [List.foldl_cons,
      ih _ hil (fun r hr => hnode r (List.mem_cons_of_mem _ hr))
        (fun r hr => hedge r (List.mem_cons_of_mem _ hr)),
      hid, hdinit, List.map_cons, List.sum_cons]
    unfold nodeEdgeTerm
    ring

/-- Inner product of the weight vector with the dense joint feature vector,
in closed form. -/
theorem dense_dot_closed (edge_dims node_dims : ℕ) (w : List ℚ)
    (s : GSample (List ℚ)) (label : List ℕ)
    (hnode : ∀ nd ∈ s.nodes, nd.data.length = node_dims)
    (hedge : ∀ nd ∈ s.nodes, ∀ q ∈ nd.neighbors, q.2.length = edge_dims) :
    dotL w (get_joint_feature_vector_dense edge_dims node_dims s label)
      = (s.nodes.enum.map (nodeEdgeTerm edge_dims w label)).sum := by
  unfold get_joint_feature_vector_dense
  rw [dense_outer_fold edge_dims node_dims w label s.nodes.enum
    (List.replicate (edge_dims + node_dims) 0) (by simp)
    (fun p hp => hnode p.2 (by
      have := List.mem_map_of_mem Prod.snd hp
      rw [List.enum_eq_enumFrom, List.enumFrom_map_snd] at this
      exact this))
    (fun p hp => hedge p.2 (by
      have := List.mem_map_of_mem Prod.snd hp
      rw [List.enum_eq_enumFrom, List.enumFrom_map_snd] at this
      exact this))]
  rw [dotL_replicate_zero, zero_add]

theorem sdot_nil (w : List ℚ) : sdot w [] = 0 := rfl

theorem sdot_append (w : List ℚ) (u v : List (ℕ × ℚ)) :
    sdot w (u ++ v) = sdot w u + sdot w v := by
  unfold sdot
  rw [List.map_append, List.sum_append]

theorem sdot_enumFrom (a : List ℚ) : ∀ (v : List ℚ) (k : ℕ),
    sdot a (List.enumFrom k v) = dotL (a.drop k) v := by
  intro v
  induction v with
  | nil => intro k; simp [sdot, dotL]
  | cons x v ih =>
    intro k
    unfold sdot at ih ⊢
    rw [List.enumFrom_cons, List.map_cons, List.sum_cons, ih (k + 1)]
    rcases h : a.drop k with _ | ⟨y, t⟩
    · have hlen : a.length ≤ k := by
        have hl := congrArg List.length h
        rw [List.length_drop] at hl
        simp only [List.length_nil] at hl
        omega
      have h2 : List.drop (k + 1) a = [] :=
        List.drop_eq_nil_of_le (Nat.le_succ_of_le hlen)
      rw [List.getD_eq_default _ _ hlen, h2]
      simp [dotL]
    · have hk : k < a.length := by
        by_contra hc
        rw [List.drop_eq_nil_of_le (by omega)] at h
        exact absurd h (by simp)
      have hy : a.getD k 0 = y := by
        rw [List.getD_eq_getElem _ _ hk]
        have h0 : (a.drop k)[0]? = some y := by
          rw [h]
          simp
        rw [List.getElem?_drop, Nat.add_zero] at h0
        have := List.getElem?_eq_getElem hk
        rw [this] at h0
        exact Option.some_inj.mp h0
      have ht : a.drop (k + 1) = t := by
        have : a.drop (k + 1) = (a.drop k).drop 1 := by
          rw [List.drop_drop]
        rw [this, h]
        rfl
      rw [hy, ht, dotL_cons]

theorem sum_map_neg (l : List (ℕ × ℚ)) (f : ℕ × ℚ → ℚ) :
    (l.map (fun p => -(f p))).sum = -((l.map f).sum) := by
  induction l with
  | nil => simp
  | cons p l ih =>
    rw [List.map_cons, List.sum_cons, List.map_cons, List.sum_cons, ih]
    ring

theorem enumFrom_map_shift (off : ℕ) : ∀ (u : List ℚ) (k : ℕ),
    (List.enumFrom k u).map (fun p => (p.1 + off, p.2))
      = List.enumFrom (k + off) u := by
  intro u
  induction u with
  | nil => intro k; rfl
  | cons x u ih =>
    intro k
    rw [List.enumFrom_cons, List.map_cons, List.enumFrom_cons, ih (k + 1)]
    have : k + 1 + off = k + off + 1 := by omega
    rw [this]

theorem sdot_add_to_sparse (w : List ℚ) (psi : List (ℕ × ℚ)) (u : List ℚ)
    (off : ℕ) :
    sdot w (add_to_sparse_vect psi u.enum off)
      = sdot w psi + dotL (w.drop off) u := by
  unfold add_to_sparse_vect
  rw [sdot_append]
  congr 1
  rw [List.enum_eq_enumFrom, enumFrom_map_shift off u 0, Nat.zero_add,
    sdot_enumFrom]

theorem sdot_subtract_from_sparse (w : List ℚ) (psi : List (ℕ × ℚ))
    (u : List ℚ) :
    sdot w (subtract_from_sparse_vect psi u.enum)
      = sdot w psi - dotL w u := by
  unfold subtract_from_sparse_vect
  rw [sdot_append]
  congr 1
  unfold sdot
  rw [List.map_map]
  have hc : ((fun p : ℕ × ℚ => w.getD p.1 0 * p.2) ∘ (fun p : ℕ × ℚ => (p.1, -p.2)))
      = fun p : ℕ × ℚ => -(w.getD p.1 0 * p.2) := by
    funext p
    simp only [Function.comp_apply]
    ring
  rw [hc, sum_map_neg u.enum (fun p => w.getD p.1 0 * p.2)]
  have : (List.map (fun p : ℕ × ℚ => w.getD p.1 0 * p.2) u.enum).sum
      = dotL w u := by
    have := sdot_enumFrom w u 0
    rw [List.drop_zero] at this
    rw [← this, List.enum_eq_enumFrom]
    rfl
  rw [this]
  ring

theorem sparse_inner_fold (edge_dims : ℕ) (w : List ℚ) (label : List ℕ) (i : ℕ) :
    ∀ (qs : List (ℕ × List ℚ)) (psi : List (ℕ × ℚ)),
      (∀ q ∈ qs, q.2.length ≤ edge_dims) →
      sdot w (qs.foldl (fun psi2 q =>
          if decide (i < q.1) && (lab label i != lab label q.1)
          then subtract_from_sparse_vect psi2 q.2.enum else psi2) psi)
        = sdot w psi - (qs.map (fun q =>
            if decide (i < q.1) && (lab label i != lab label q.1)
            then dotL (List.take edge_dims w) q.2 else 0)).sum := by
  intro qs
  induction qs with
  | nil =>
    intro psi _
    simp
  | cons q qs ih =>
    intro psi hq
    have hqe : q.2.length ≤ edge_dims := hq q (List.mem_cons_self _ _)
    have hrest : ∀ r ∈ qs, r.2.length ≤ edge_dims :=
      fun r hr => hq r (List.mem_cons_of_mem _ hr)
    by_cases hc : (decide (i < q.1) && (lab label i != lab label q.1)) = true
    · rw [List.foldl_cons, if_pos hc, List.map_cons, if_pos hc, List.sum_cons,
        ih _ hrest, sdot_subtract_from_sparse w psi q.2,
        dotL_take_of_le edge_dims w q.2 hqe]
      ring
    · rw [List.foldl_cons, if_neg hc, List.map_cons, if_neg hc, List.sum_cons,
        ih _ hrest]
      ring

theorem sparse_outer_fold (edge_dims : ℕ) (w : List ℚ) (label : List ℕ) :
    ∀ (ps : List (ℕ × GNode (List ℚ))) (psi : List (ℕ × ℚ)),
      (∀ p ∈ ps, ∀ q ∈ p.2.neighbors, q.2.length ≤ edge_dims) →
      sdot w (ps.foldl (fun psi p =>
          p.2.neighbors.foldl (fun psi2 q =>
            if decide (p.1 < q.1) && (lab label p.1 != lab label q.1)
            then subtract_from_sparse_vect psi2 q.2.enum else psi2)
            (if lab label p.1 then add_to_sparse_vect psi p.2.data.enum edge_dims
             else psi)) psi)
        = sdot w psi + (ps.map (nodeEdgeTerm edge_dims w label)).sum := by
  intro ps
  induction ps with
  | nil =>
    intro psi _
    simp
  | cons p ps ih =>
    intro psi hedge
    have hpe : ∀ q ∈ p.2.neighbors, q.2.length ≤ edge_dims :=
      hedge p (List.mem_cons_self _ _)
    have hdinit : sdot w (if lab label p.1
        then add_to_sparse_vect psi p.2.data.enum edge_dims else psi)
        = sdot w psi
          + (if lab label p.1 then dotL (List.drop edge_dims w) p.2.data else 0) := by
      by_cases hc : lab label p.1 = true
      · rw [if_pos hc, if_pos hc]
        exact sdot_add_to_sparse w psi p.2.data edge_dims
      · rw [if_neg hc, if_neg hc]
        ring
    rw [List.foldl_cons, ih _ (fun r hr => hedge r (List.mem_cons_of_mem _ hr)),
      sparse_inner_fold edge_dims w label p.1 p.2.neighbors _ hpe, hdinit,
      List.map_cons, List.sum_cons]
    unfold nodeEdgeTerm
    ring

theorem enumFrom_map_node (f : GNode (List ℚ) → GNode (List (ℕ × ℚ))) :
    ∀ (l : List (GNode (List ℚ))) (k : ℕ),
    (l.map f).enumFrom k = (l.enumFrom k).map (fun p => (p.1, f p.2)) := by
  intro l
  induction l with
  | nil => intro k; rfl
  | cons x l ih =>
    intro k
    rw [List.map_cons, List.enumFrom_cons, List.enumFrom_cons, List.map_cons,
      ih (k + 1)]

/-- Inner product of the weight vector with the sparse joint feature vector
of the rendered sample, in closed form. -/
theorem sparse_dot_closed (edge_dims : ℕ) (w : List ℚ)
    (s : GSample (List ℚ)) (label : List ℕ)
    (hedge : ∀ nd ∈ s.nodes, ∀ q ∈ nd.neighbors, q.2.length ≤ edge_dims) :
    sdot w (get_joint_feature_vector_sparse edge_dims (toSparseSample s) label)
      = (s.nodes.enum.map (nodeEdgeTerm edge_dims w label)).sum := by
  unfold get_joint_feature_vector_sparse toSparseSample
  rw [show (GSample.mk (s.nodes.map toSparseNode)).nodes
      = s.nodes.map toSparseNode from rfl]
  rw [List.enum_eq_enumFrom, enumFrom_map_node toSparseNode s.nodes 0,
    List.foldl_map]
  have hbody : (fun (psi : List (ℕ × ℚ)) (p : ℕ × GNode (List ℚ)) =>
      ((p.1, toSparseNode p.2).2.neighbors.foldl (fun psi2 q =>
        if decide ((p.1, toSparseNode p.2).1 < q.1)
            && (lab label (p.1, toSparseNode p.2).1 != lab label q.1)
        then subtract_from_sparse_vect psi2 q.2 else psi2)
        (if lab label (p.1, toSparseNode p.2).1
         then add_to_sparse_vect psi (p.1, toSparseNode p.2).2.data edge_dims
         else psi)))
      = fun (psi : List (ℕ × ℚ)) (p : ℕ × GNode (List ℚ)) =>
      p.2.neighbors.foldl (fun psi2 q =>
        if decide (p.1 < q.1) && (lab label p.1 != lab label q.1)
        then subtract_from_sparse_vect psi2 q.2.enum else psi2)
        (if lab label p.1 then add_to_sparse_vect psi p.2.data.enum edge_dims
         else psi) := by
    funext psi p
    show (toSparseNode p.2).neighbors.foldl _ _ = _
    unfold toSparseNode toSparseVect
    rw [show (GNode.mk p.2.data.enum
        (p.2.neighbors.map (fun q => (q.1, q.2.enum)))).neighbors
        = p.2.neighbors.map (fun q => (q.1, q.2.enum)) from rfl]
    rw [show (GNode.mk p.2.data.enum
        (p.2.neighbors.map (fun q => (q.1, q.2.enum)))).data
        = p.2.data.enum from rfl]
    rw [List.foldl_map]
  rw [hbody, ← List.enum_eq_enumFrom,
    sparse_outer_fold edge_dims w label s.nodes.enum []
      (fun p hp => hedge p.2 (by
        have := List.mem_map_of_mem Prod.snd hp
        rw [List.enum_eq_enumFrom, List.enumFrom_map_snd] at this
        exact this))]
  rw [sdot_nil, zero_add]

/-- C2: for every (dense) sample, labeling, and weight vector of length
`edge_dims + node_dims`, the dense joint feature vector and the sparse
joint feature vector of the same sample rendered sparse have equal inner
products with the weight vector. -/
theorem C2_dense_sparse_inner_product (edge_dims node_dims : ℕ)
    (s : GSample (List ℚ)) (label : List ℕ) (w : List ℚ)
    (hw : w.length = edge_dims + node_dims)
    (hnode : ∀ nd ∈ s.nodes, nd.data.length = node_dims)
    (hedge : ∀ nd ∈ s.nodes, ∀ q ∈ nd.neighbors, q.2.length = edge_dims) :
    dotL w (get_joint_feature_vector_dense edge_dims node_dims s label)
      = sdot w (get_joint_feature_vector_sparse edge_dims (toSparseSample s) label) := by
  rw [dense_dot_closed edge_dims node_dims w s label hnode hedge,
    sparse_dot_closed edge_dims w s label
      (fun nd hnd q hq => le_of_eq (hedge nd hnd q hq))]

/-- C2 witness: Scenario A with the weight vector `[0, 1, 0]` and labels
`[1, 1, 0]`. -/
theorem C2_dense_sparse_inner_product_witness :
    dotL [0, 1, 0] (get_joint_feature_vector_dense 1 2 scenarioA [1, 1, 0])
      = sdot [0, 1, 0]
          (get_joint_feature_vector_sparse 1 (toSparseSample scenarioA) [1, 1, 0]) :=
  C2_dense_sparse_inner_product 1 2 scenarioA [1, 1, 0] [0, 1, 0] rfl
    (by intro nd hnd; fin_cases hnd <;> rfl)
    (by intro nd hnd; fin_cases hnd <;> (intro q hq; fin_cases hq <;> rfl))

/-
## C5, C6: characterizing the validator

`sizesOK d ss` captures the validator's threaded dimension state: starting
from state `d` (`none` = unassigned), every size in `ss` must match the
state, the first size seen assigning an unassigned state.  `stepDim d ss`
is the state after consuming `ss`.
-/

def sizesOK : Option ℕ → List ℕ → Prop
  | _, [] => True
  | none, s :: ss => sizesOK (some s) ss
  | some d, s :: ss => s = d ∧ sizesOK (some d) ss

def stepDim (d : Option ℕ) (ss : List ℕ) : Option ℕ :=
  match d with
  | some x => some x
  | none => ss.head?

theorem sizesOK_some_iff (d : ℕ) : ∀ ss : List ℕ,
    sizesOK (some d) ss ↔ ∀ a ∈ ss, a = d := by
  intro ss
  induction ss with
  | nil => simp [sizesOK]
  | cons s ss ih => simp [sizesOK, ih, List.forall_mem_cons]

theorem sizesOK_none_iff : ∀ ss : List ℕ,
    sizesOK none ss ↔ ∀ a ∈ ss, ∀ b ∈ ss, a = b := by
  intro ss
  cases ss with
  | nil => simp [sizesOK]
  | cons s ss =>
    show sizesOK (some s) ss ↔ _
    rw [sizesOK_some_iff]
    constructor
    · intro h a ha b hb
      have hval : ∀ c ∈ s :: ss, c = s := by
        intro c hc
        rcases List.mem_cons.mp hc with rfl | hc
        · rfl
        · exact h c hc
      rw [hval a ha, hval b hb]
    · intro h a ha
      exact h a (List.mem_cons_of_mem _ ha) s (List.mem_cons_self _ _)

theorem stepDim_append (d : Option ℕ) (ss tt : List ℕ) :
    stepDim d (ss ++ tt) = stepDim (stepDim d ss) tt := by
  cases d with
  | some x => rfl
  | none =>
    cases ss with
    | nil => rfl
    | cons s ss => simp [stepDim]

theorem sizesOK_append (ss tt : List ℕ) : ∀ d : Option ℕ,
    sizesOK d (ss ++ tt) ↔ sizesOK d ss ∧ sizesOK (stepDim d ss) tt := by
  induction ss with
  | nil => intro d; cases d <;> simp [sizesOK, stepDim]
  | cons s ss ih =>
    intro d
    cases d with
    | none =>
      show sizesOK (some s) (ss ++ tt) ↔ sizesOK (some s) ss ∧ _
      rw [ih (some s)]
      simp [stepDim]
    | some d =>
      show (s = d ∧ sizesOK (some d) (ss ++ tt)) ↔ (s = d ∧ _) ∧ _
      rw [ih (some d)]
      simp [stepDim, and_assoc]

theorem checkEdgeVects_some_iff {V : Type} (fk : FeatKind V)
    (hm : fk.ismat = true) :
    ∀ (es : List V) (ed ed' : Option ℕ),
    checkEdgeVects fk ed es = some ed' ↔
      ((∀ e ∈ es, fk.size e ≠ 0 ∧ ¬ fk.minv e < 0)
       ∧ sizesOK ed (es.map fk.size)
       ∧ ed' = stepDim ed (es.map fk.size)) := by
  intro es
  induction es with
  | nil =>
    intro ed ed'
    cases ed <;> simp [checkEdgeVects, sizesOK, stepDim, eq_comm]
  | cons e es ih =>
    intro ed ed'
    by_cases h0 : fk.size e = 0
    · simp [checkEdgeVects, hm, h0, List.forall_mem_cons]
    by_cases h1 : fk.minv e < 0
    · simp [checkEdgeVects, hm, h0, h1, List.forall_mem_cons]
    cases ed with
    | none =>
      show checkEdgeVects fk none (e :: es) = some ed' ↔ _
      rw [show checkEdgeVects fk none (e :: es)
          = checkEdgeVects fk (some (fk.size e)) es by
        simp [checkEdgeVects, hm, h0, h1]]
      rw [ih (some (fk.size e)) ed']
      simp [sizesOK, stepDim, List.forall_mem_cons, h0, h1, not_lt.mp h1]
    | some d =>
      by_cases h2 : fk.size e = d
      · rw [show checkEdgeVects fk (some d) (e :: es)
            = checkEdgeVects fk (some d) es by
          simp [checkEdgeVects, hm, h0, h1, h2, h2 ▸ h0]]
        rw [ih (some d) ed']
        simp [sizesOK, stepDim, List.forall_mem_cons, h0, h1, h2, h2 ▸ h0,
          not_lt.mp h1]
      · rw [show checkEdgeVects fk (some d) (e :: es) = none by
          simp [checkEdgeVects, hm, h0, h1]
          intro hc
          exact absurd hc.symm h2]
        simp [sizesOK, List.forall_mem_cons, h2]

theorem checkNodes_some_iff {V : Type} (fk : FeatKind V) (hm : fk.ismat = true) :
    ∀ (ns : List (GNode V)) (d1 d2 : Option ℕ) (st' : Option ℕ × Option ℕ),
    checkNodes fk (d1, d2) ns = some st' ↔
      ((∀ n ∈ ns, fk.size n.data ≠ 0)
       ∧ (∀ n ∈ ns, ∀ q ∈ n.neighbors, fk.size q.2 ≠ 0 ∧ ¬ fk.minv q.2 < 0)
       ∧ sizesOK d1 (ns.map (fun n => fk.size n.data))
       ∧ sizesOK d2 (ns.flatMap (fun n => (n.neighbors.map Prod.snd).map fk.size))
       ∧ st' = (stepDim d1 (ns.map (fun n => fk.size n.data)),
                stepDim d2 (ns.flatMap (fun n =>
                  (n.neighbors.map Prod.snd).map fk.size)))) := by
  intro ns
  induction ns with
  | nil =>
    intro d1 d2 st'
    cases d1 <;> cases d2 <;>
      simp [checkNodes, sizesOK, stepDim, eq_comm]
  | cons n ns ih =>
    intro d1 d2 st'
    by_cases h0 : fk.size n.data = 0
    · simp [checkNodes, h0, List.forall_mem_cons]
    have hqiff : (∀ e ∈ n.neighbors.map Prod.snd, fk.size e ≠ 0 ∧ ¬ fk.minv e < 0)
        ↔ (∀ q ∈ n.neighbors, fk.size q.2 ≠ 0 ∧ ¬ fk.minv q.2 < 0) :=
      List.forall_mem_map
    -- the head's edge-size list, as it appears in the flatMap
    have hsplit : ((n :: ns).flatMap (fun m =>
        (m.neighbors.map Prod.snd).map fk.size))
        = ((n.neighbors.map Prod.snd).map fk.size)
          ++ (ns.flatMap (fun m => (m.neighbors.map Prod.snd).map fk.size)) :=
      List.flatMap_cons _ _ _
    have hmap : ((n :: ns).map (fun m => fk.size m.data))
        = fk.size n.data :: ns.map (fun m => fk.size m.data) := List.map_cons _ _ _
    rcases hd1 : d1 with _ | d
    case _ =>
      -- d1 = none: the node-dims guard always passes, assigning the state
      have hred : checkNodes fk (none, d2) (n :: ns)
          = (match checkEdgeVects fk d2 (n.neighbors.map Prod.snd) with
             | none => none
             | some ed1 => checkNodes fk (some (fk.size n.data), ed1) ns) := by
        simp [checkNodes, hm, h0]
      rw [hred]
      cases hE : checkEdgeVects fk d2 (n.neighbors.map Prod.snd) with
      | none =>
        constructor
        · intro hc
          exact Option.noConfusion hc
        · rintro ⟨hA, hB, hC, hD, hst⟩
          rw [hsplit, sizesOK_append] at hD
          have hsome := (checkEdgeVects_some_iff fk hm
            (n.neighbors.map Prod.snd) d2
            (stepDim d2 ((n.neighbors.map Prod.snd).map fk.size))).mpr
            ⟨hqiff.mpr (hB n (List.mem_cons_self _ _)), hD.1, rfl⟩
          rw [hE] at hsome
          exact Option.noConfusion hsome
      | some ed1 =>
        obtain ⟨hel, hszE, hedE⟩ :=
          (checkEdgeVects_some_iff fk hm (n.neighbors.map Prod.snd) d2 ed1).mp hE
        rw [ih (some (fk.size n.data)) ed1 st']
        constructor
        · rintro ⟨hA, hB, hC, hD, hst⟩
          refine ⟨List.forall_mem_cons.mpr ⟨h0, hA⟩,
            List.forall_mem_cons.mpr ⟨hqiff.mp hel, hB⟩, ?_, ?_, ?_⟩
          · rw [hmap]
            exact hC
          · rw [hsplit, sizesOK_append]
            exact ⟨hszE, by rw [← hedE]; exact hD⟩
          · rw [hst, hmap, hsplit, stepDim_append, ← hedE]
            rfl
        · rintro ⟨hA, hB, hC, hD, hst⟩
          rw [hmap] at hC hst
          rw [hsplit, sizesOK_append] at hD
          rw [hsplit, stepDim_append, ← hedE] at hst
          refine ⟨(List.forall_mem_cons.mp hA).2, (List.forall_mem_cons.mp hB).2,
            hC, by rw [hedE]; exact hD.2, ?_⟩
          rw [hst]
          rfl
    case _ =>
      by_cases h2 : fk.size n.data = d
      · have hred : checkNodes fk (some d, d2) (n :: ns)
            = (match checkEdgeVects fk d2 (n.neighbors.map Prod.snd) with
               | none => none
               | some ed1 => checkNodes fk (some d, ed1) ns) := by
          simp [checkNodes, hm, h0, h2, h2 ▸ h0]
        rw [hred]
        cases hE : checkEdgeVects fk d2 (n.neighbors.map Prod.snd) with
        | none =>
          constructor
          · intro hc
            exact Option.noConfusion hc
          · rintro ⟨hA, hB, hC, hD, hst⟩
            rw [hsplit, sizesOK_append] at hD
            have hsome := (checkEdgeVects_some_iff fk hm
              (n.neighbors.map Prod.snd) d2
              (stepDim d2 ((n.neighbors.map Prod.snd).map fk.size))).mpr
              ⟨hqiff.mpr (hB n (List.mem_cons_self _ _)), hD.1, rfl⟩
            rw [hE] at hsome
            exact Option.noConfusion hsome
        | some ed1 =>
          obtain ⟨hel, hszE, hedE⟩ :=
            (checkEdgeVects_some_iff fk hm (n.neighbors.map Prod.snd) d2 ed1).mp hE
          rw [ih (some d) ed1 st']
          constructor
          · rintro ⟨hA, hB, hC, hD, hst⟩
            refine ⟨List.forall_mem_cons.mpr ⟨h0, hA⟩,
              List.forall_mem_cons.mpr ⟨hqiff.mp hel, hB⟩, ?_, ?_, ?_⟩
            · rw [hmap]
              exact ⟨h2, hC⟩
            · rw [hsplit, sizesOK_append]
              exact ⟨hszE, by rw [← hedE]; exact hD⟩
            · rw [hst, hmap, hsplit, stepDim_append, ← hedE]
              rfl
          · rintro ⟨hA, hB, hC, hD, hst⟩
            rw [hmap] at hC hst
            rw [hsplit, sizesOK_append] at hD
            rw [hsplit, stepDim_append, ← hedE] at hst
            refine ⟨(List.forall_mem_cons.mp hA).2, (List.forall_mem_cons.mp hB).2,
              hC.2, by rw [hedE]; exact hD.2, ?_⟩
            rw [hst]
            rfl
      · have hred : checkNodes fk (some d, d2) (n :: ns) = none := by
          simp [checkNodes, hm, h0]
          intro hc
          exact absurd hc.symm h2
        rw [hred]
        constructor
        · intro hc
          exact Option.noConfusion hc
        · rintro ⟨hA, hB, hC, hD, hst⟩
          rw [hmap] at hC
          exact absurd hC.1 h2

theorem sizesOK_nil (d : Option ℕ) : sizesOK d [] := by
  cases d <;> trivial

theorem stepDim_nil (d : Option ℕ) : stepDim d [] = d := by
  cases d <;> rfl

theorem checkSamples_some_iff {V : Type} (fk : FeatKind V) (hm : fk.ismat = true) :
    ∀ (prs : List (GSample V × List ℕ)) (d1 d2 : Option ℕ)
      (st' : Option ℕ × Option ℕ),
    checkSamples fk (d1, d2) prs = some st' ↔
      ((∀ pr ∈ prs, pr.1.nodes.length = pr.2.length)
       ∧ (∀ pr ∈ prs, graph_contains_length_one_cycle pr.1 = false)
       ∧ (∀ pr ∈ prs, ∀ n ∈ pr.1.nodes, fk.size n.data ≠ 0)
       ∧ (∀ pr ∈ prs, ∀ n ∈ pr.1.nodes, ∀ q ∈ n.neighbors,
            fk.size q.2 ≠ 0 ∧ ¬ fk.minv q.2 < 0)
       ∧ sizesOK d1 (prs.flatMap (fun pr =>
            pr.1.nodes.map (fun n => fk.size n.data)))
       ∧ sizesOK d2 (prs.flatMap (fun pr =>
            pr.1.nodes.flatMap (fun n => (n.neighbors.map Prod.snd).map fk.size)))
       ∧ st' = (stepDim d1 (prs.flatMap (fun pr =>
                  pr.1.nodes.map (fun n => fk.size n.data))),
                stepDim d2 (prs.flatMap (fun pr =>
                  pr.1.nodes.flatMap (fun n =>
                    (n.neighbors.map Prod.snd).map fk.size))))) := by
  intro prs
  induction prs with
  | nil =>
    intro d1 d2 st'
    rw [show checkSamples fk (d1, d2) [] = some (d1, d2) from rfl]
    constructor
    · intro hc
      obtain rfl := Option.some_inj.mp hc
      exact ⟨by simp, by simp, by simp, by simp, sizesOK_nil _, sizesOK_nil _,
        by rw [show ([] : List (GSample V × List ℕ)).flatMap (fun pr =>
            pr.1.nodes.map (fun n => fk.size n.data)) = [] from rfl,
          show ([] : List (GSample V × List ℕ)).flatMap (fun pr =>
            pr.1.nodes.flatMap (fun n => (n.neighbors.map Prod.snd).map fk.size))
            = [] from rfl, stepDim_nil, stepDim_nil]⟩
    · rintro ⟨_, _, _, _, _, _, hst⟩
      rw [hst,
        show ([] : List (GSample V × List ℕ)).flatMap (fun pr =>
          pr.1.nodes.map (fun n => fk.size n.data)) = [] from rfl,
        show ([] : List (GSample V × List ℕ)).flatMap (fun pr =>
          pr.1.nodes.flatMap (fun n => (n.neighbors.map Prod.snd).map fk.size))
          = [] from rfl, stepDim_nil, stepDim_nil]
  | cons pr rest ih =>
    obtain ⟨s, l⟩ := pr
    intro d1 d2 st'
    have hsplitN : (((s, l) :: rest).flatMap (fun pr =>
        pr.1.nodes.map (fun n => fk.size n.data)))
        = (s.nodes.map (fun n => fk.size n.data))
          ++ (rest.flatMap (fun pr => pr.1.nodes.map (fun n => fk.size n.data))) :=
      List.flatMap_cons _ _ _
    have hsplitE : (((s, l) :: rest).flatMap (fun pr =>
        pr.1.nodes.flatMap (fun n => (n.neighbors.map Prod.snd).map fk.size)))
        = (s.nodes.flatMap (fun n => (n.neighbors.map Prod.snd).map fk.size))
          ++ (rest.flatMap (fun pr =>
              pr.1.nodes.flatMap (fun n => (n.neighbors.map Prod.snd).map fk.size))) :=
      List.flatMap_cons _ _ _
    by_cases hlen : s.nodes.length = l.length
    case neg =>
      have hred : checkSamples fk (d1, d2) ((s, l) :: rest) = none := by
        simp [checkSamples, hlen]
      rw [hred]
      constructor
      · intro hc
        exact Option.noConfusion hc
      · rintro ⟨hA, _, _, _, _, _, _⟩
        exact absurd (hA (s, l) (List.mem_cons_self _ _)) hlen
    case pos =>
    by_cases hcyc : graph_contains_length_one_cycle s = true
    case pos =>
      have hred : checkSamples fk (d1, d2) ((s, l) :: rest) = none := by
        simp [checkSamples, hlen, hcyc]
      rw [hred]
      constructor
      · intro hc
        exact Option.noConfusion hc
      · rintro ⟨_, hB, _, _, _, _, _⟩
        have := hB (s, l) (List.mem_cons_self _ _)
        rw [hcyc] at this
        exact Bool.noConfusion this
    case neg =>
    have hred : checkSamples fk (d1, d2) ((s, l) :: rest)
        = (match checkNodes fk (d1, d2) s.nodes with
           | none => none
           | some st1 => checkSamples fk st1 rest) := by
      simp [checkSamples, hlen, hcyc]
    rw [hred]
    cases hN : checkNodes fk (d1, d2) s.nodes with
    | none =>
      constructor
      · intro hc
        exact Option.noConfusion hc
      · rintro ⟨hA, hB, hC, hD, hE, hF, hst⟩
        rw [hsplitN, sizesOK_append] at hE
        rw [hsplitE, sizesOK_append] at hF
        have hsome := (checkNodes_some_iff fk hm s.nodes d1 d2
          (stepDim d1 (s.nodes.map (fun n => fk.size n.data)),
           stepDim d2 (s.nodes.flatMap (fun n =>
             (n.neighbors.map Prod.snd).map fk.size)))).mpr
          ⟨hC (s, l) (List.mem_cons_self _ _),
           hD (s, l) (List.mem_cons_self _ _), hE.1, hF.1, rfl⟩
        rw [hN] at hsome
        exact Option.noConfusion hsome
    | some st1 =>
      obtain ⟨hn1, hn2, hn3, hn4, hn5⟩ :=
        (checkNodes_some_iff fk hm s.nodes d1 d2 st1).mp hN
      rw [hn5]
      rw [ih (stepDim d1 (s.nodes.map (fun n => fk.size n.data)))
        (stepDim d2 (s.nodes.flatMap (fun n =>
          (n.neighbors.map Prod.snd).map fk.size))) st']
      constructor
      · rintro ⟨hA, hB, hC, hD, hE, hF, hst⟩
        refine ⟨List.forall_mem_cons.mpr ⟨hlen, hA⟩,
          List.forall_mem_cons.mpr ⟨Bool.eq_false_iff.mpr hcyc, hB⟩,
          List.forall_mem_cons.mpr ⟨hn1, hC⟩,
          List.forall_mem_cons.mpr ⟨hn2, hD⟩, ?_, ?_, ?_⟩
        · rw [hsplitN, sizesOK_append]
          exact ⟨hn3, hE⟩
        · rw [hsplitE, sizesOK_append]
          exact ⟨hn4, hF⟩
        · rw [hst, hsplitN, hsplitE, stepDim_append, stepDim_append]
      · rintro ⟨hA, hB, hC, hD, hE, hF, hst⟩
        rw [hsplitN, sizesOK_append] at hE
        rw [hsplitE, sizesOK_append] at hF
        rw [hsplitN, hsplitE, stepDim_append, stepDim_append] at hst
        exact ⟨(List.forall_mem_cons.mp hA).2, (List.forall_mem_cons.mp hB).2,
          (List.forall_mem_cons.mp hC).2, (List.forall_mem_cons.mp hD).2,
          hE.2, hF.2, hst⟩

theorem foldl_min_lt_zero (xs : List ℚ) : ∀ a : ℚ,
    xs.foldl min a < 0 ↔ a < 0 ∨ ∃ x ∈ xs, x < 0 := by
  induction xs with
  | nil => intro a; simp
  | cons y ys ih =>
    intro a
    rw [List.foldl_cons, ih (min a y)]
    simp [min_lt_iff, or_assoc]

/-- The validator's `min(edge_vector) < 0` test on a dense vector holds
exactly when some entry is negative. -/
theorem minMat_lt_zero_iff (v : List ℚ) :
    minMat v < 0 ↔ ∃ x ∈ v, x < 0 := by
  cases v with
  | nil => simp [minMat]
  | cons x xs =>
    show xs.foldl min x < 0 ↔ _
    rw [foldl_min_lt_zero xs x]
    simp

/-- The validator's `min(edge_vector) < 0` test on a sparse vector holds
exactly when some stored value is negative. -/
theorem minSparse_lt_zero_iff (v : List (ℕ × ℚ)) :
    minSparse v < 0 ↔ ∃ p ∈ v, p.2 < 0 := by
  have hgen : ∀ (l : List (ℕ × ℚ)) (a : ℚ),
      l.foldl (fun m p => min m p.2) a < 0 ↔ a < 0 ∨ ∃ p ∈ l, p.2 < 0 := by
    intro l
    induction l with
    | nil => intro a; simp
    | cons q l ih =>
      intro a
      rw [List.foldl_cons, ih (min a q.2)]
      simp [min_lt_iff, or_assoc]
  unfold minSparse
  rw [hgen v 0]
  simp

/-- `¬ min(v) < 0` on a dense vector says every entry is non-negative. -/
theorem not_minMat_lt_iff (v : List ℚ) :
    (¬ minMat v < 0) ↔ ∀ x ∈ v, 0 ≤ x := by
  rw [minMat_lt_zero_iff]
  push_neg
  rfl

/-- The dense validator accepts exactly the datasets that form a learning
problem in which every label vector matches its sample's node count, no
sample has a self-referencing edge, every edge-feature entry is
non-negative, no node or edge feature vector is empty, and all node
vectors (resp. all edge vectors) across the dataset share one
dimensionality. -/
theorem dense_validator_accepts_iff (samples : List (GSample (List ℚ)))
    (labels : List (List ℕ)) :
    is_graph_labeling_problem fkDense samples labels = true ↔
      (is_learning_problem samples labels = true
       ∧ (∀ pr ∈ samples.zip labels, pr.1.nodes.length = pr.2.length)
       ∧ (∀ s ∈ samples, graph_contains_length_one_cycle s = false)
       ∧ (∀ s ∈ samples, ∀ n ∈ s.nodes, ∀ q ∈ n.neighbors, ∀ x ∈ q.2, 0 ≤ x)
       ∧ (∀ s ∈ samples, ∀ n ∈ s.nodes, n.data.length ≠ 0)
       ∧ (∀ s ∈ samples, ∀ n ∈ s.nodes, ∀ q ∈ n.neighbors, q.2.length ≠ 0)
       ∧ (∀ s1 ∈ samples, ∀ s2 ∈ samples, ∀ n1 ∈ s1.nodes, ∀ n2 ∈ s2.nodes,
            n1.data.length = n2.data.length)
       ∧ (∀ s1 ∈ samples, ∀ s2 ∈ samples, ∀ n1 ∈ s1.nodes, ∀ n2 ∈ s2.nodes,
            ∀ q1 ∈ n1.neighbors, ∀ q2 ∈ n2.neighbors,
            q1.2.length = q2.2.length)) := by
  unfold is_graph_labeling_problem
  rw [Bool.and_eq_true]
  by_cases hL : is_learning_problem samples labels = true
  case neg => simp [hL]
  case pos =>
  have hlen : samples.length = labels.length := by
    unfold is_learning_problem at hL
    rw [Bool.and_eq_true] at hL
    simpa using hL.1
  have hfst : (samples.zip labels).map Prod.fst = samples :=
    List.map_fst_zip _ _ (le_of_eq hlen)
  have hmemS : ∀ s : GSample (List ℚ),
      s ∈ samples ↔ ∃ pr ∈ samples.zip labels, pr.1 = s := by
    intro s
    conv_lhs => rw [← hfst]
    exact List.mem_map
  have hbr : ∀ P : GSample (List ℚ) → Prop,
      (∀ pr ∈ samples.zip labels, P pr.1) ↔ (∀ s ∈ samples, P s) := by
    intro P
    constructor
    · intro h s hs
      obtain ⟨pr, hpr, hpr1⟩ := (hmemS s).mp hs
      rw [← hpr1]
      exact h pr hpr
    · intro h pr hpr
      apply h
      rw [← hfst]
      exact List.mem_map_of_mem Prod.fst hpr
  -- the validator's success, characterized
  have hkey : ((checkSamples fkDense (none, none) (samples.zip labels)).isSome
      = true) ↔
      ((∀ pr ∈ samples.zip labels, pr.1.nodes.length = pr.2.length)
       ∧ (∀ pr ∈ samples.zip labels,
            graph_contains_length_one_cycle pr.1 = false)
       ∧ (∀ pr ∈ samples.zip labels, ∀ n ∈ pr.1.nodes,
            fkDense.size n.data ≠ 0)
       ∧ (∀ pr ∈ samples.zip labels, ∀ n ∈ pr.1.nodes, ∀ q ∈ n.neighbors,
            fkDense.size q.2 ≠ 0 ∧ ¬ fkDense.minv q.2 < 0)
       ∧ sizesOK none ((samples.zip labels).flatMap (fun pr =>
            pr.1.nodes.map (fun n => fkDense.size n.data)))
       ∧ sizesOK none ((samples.zip labels).flatMap (fun pr =>
            pr.1.nodes.flatMap (fun n =>
              (n.neighbors.map Prod.snd).map fkDense.size)))) := by
    rw [Option.isSome_iff_exists]
    constructor
    · rintro ⟨st', hst⟩
      obtain ⟨a, b, c, d, e, f, _⟩ :=
        (checkSamples_some_iff fkDense rfl (samples.zip labels) none none st').mp hst
      exact ⟨a, b, c, d, e, f⟩
    · rintro ⟨a, b, c, d, e, f⟩
      exact ⟨_, (checkSamples_some_iff fkDense rfl (samples.zip labels)
        none none _).mpr ⟨a, b, c, d, e, f, rfl⟩⟩
  rw [hkey]
  -- bridge each condition to its per-sample statement
  have h3 : (∀ pr ∈ samples.zip labels, ∀ n ∈ pr.1.nodes,
      fkDense.size n.data ≠ 0)
      ↔ (∀ s ∈ samples, ∀ n ∈ s.nodes, n.data.length ≠ 0) :=
    hbr (fun s => ∀ n ∈ s.nodes, n.data.length ≠ 0)
  have h4 : (∀ pr ∈ samples.zip labels, ∀ n ∈ pr.1.nodes, ∀ q ∈ n.neighbors,
      fkDense.size q.2 ≠ 0 ∧ ¬ fkDense.minv q.2 < 0)
      ↔ (∀ s ∈ samples, ∀ n ∈ s.nodes, ∀ q ∈ n.neighbors,
          q.2.length ≠ 0 ∧ ∀ x ∈ q.2, 0 ≤ x) := by
    rw [hbr (fun s => ∀ n ∈ s.nodes, ∀ q ∈ n.neighbors,
      fkDense.size q.2 ≠ 0 ∧ ¬ fkDense.minv q.2 < 0)]
    constructor
    · intro h s hs n hn q hq
      obtain ⟨hq1, hq2⟩ := h s hs n hn q hq
      exact ⟨hq1, (not_minMat_lt_iff q.2).mp hq2⟩
    · intro h s hs n hn q hq
      obtain ⟨hq1, hq2⟩ := h s hs n hn q hq
      exact ⟨hq1, (not_minMat_lt_iff q.2).mpr hq2⟩
  have h2 : (∀ pr ∈ samples.zip labels,
      graph_contains_length_one_cycle pr.1 = false)
      ↔ (∀ s ∈ samples, graph_contains_length_one_cycle s = false) :=
    hbr (fun s => graph_contains_length_one_cycle s = false)
  have h5 : sizesOK none ((samples.zip labels).flatMap (fun pr =>
      pr.1.nodes.map (fun n => fkDense.size n.data)))
      ↔ (∀ s1 ∈ samples, ∀ s2 ∈ samples, ∀ n1 ∈ s1.nodes, ∀ n2 ∈ s2.nodes,
          n1.data.length = n2.data.length) := by
    rw [sizesOK_none_iff]
    constructor
    · intro h s1 hs1 s2 hs2 n1 hn1 n2 hn2
      obtain ⟨pr1, hpr1, hp1⟩ := (hmemS s1).mp hs1
      obtain ⟨pr2, hpr2, hp2⟩ := (hmemS s2).mp hs2
      apply h
      · exact List.mem_flatMap.mpr ⟨pr1, hpr1,
          List.mem_map.mpr ⟨n1, by rw [hp1]; exact hn1, rfl⟩⟩
      · exact List.mem_flatMap.mpr ⟨pr2, hpr2,
          List.mem_map.mpr ⟨n2, by rw [hp2]; exact hn2, rfl⟩⟩
    · intro h a ha b hb
      obtain ⟨pr1, hpr1, ha2⟩ := List.mem_flatMap.mp ha
      obtain ⟨n1, hn1, rfl⟩ := List.mem_map.mp ha2
      obtain ⟨pr2, hpr2, hb2⟩ := List.mem_flatMap.mp hb
      obtain ⟨n2, hn2, rfl⟩ := List.mem_map.mp hb2
      exact h pr1.1 (by rw [← hfst]; exact List.mem_map_of_mem Prod.fst hpr1)
        pr2.1 (by rw [← hfst]; exact List.mem_map_of_mem Prod.fst hpr2)
        n1 hn1 n2 hn2
  have h6 : sizesOK none ((samples.zip labels).flatMap (fun pr =>
      pr.1.nodes.flatMap (fun n => (n.neighbors.map Prod.snd).map fkDense.size)))
      ↔ (∀ s1 ∈ samples, ∀ s2 ∈ samples, ∀ n1 ∈ s1.nodes, ∀ n2 ∈ s2.nodes,
          ∀ q1 ∈ n1.neighbors, ∀ q2 ∈ n2.neighbors,
          q1.2.length = q2.2.length) := by
    rw [sizesOK_none_iff]
    constructor
    · intro h s1 hs1 s2 hs2 n1 hn1 n2 hn2 q1 hq1 q2 hq2
      obtain ⟨pr1, hpr1, hp1⟩ := (hmemS s1).mp hs1
      obtain ⟨pr2, hpr2, hp2⟩ := (hmemS s2).mp hs2
      apply h
      · exact List.mem_flatMap.mpr ⟨pr1, hpr1,
          List.mem_flatMap.mpr ⟨n1, by rw [hp1]; exact hn1,
            List.mem_map.mpr ⟨q1.2, List.mem_map_of_mem Prod.snd hq1, rfl⟩⟩⟩
      · exact List.mem_flatMap.mpr ⟨pr2, hpr2,
          List.mem_flatMap.mpr ⟨n2, by rw [hp2]; exact hn2,
            List.mem_map.mpr ⟨q2.2, List.mem_map_of_mem Prod.snd hq2, rfl⟩⟩⟩
    · intro h a ha b hb
      obtain ⟨pr1, hpr1, ha2⟩ := List.mem_flatMap.mp ha
      obtain ⟨n1, hn1, ha3⟩ := List.mem_flatMap.mp ha2
      obtain ⟨e1, he1, rfl⟩ := List.mem_map.mp ha3
      obtain ⟨q1, hq1, rfl⟩ := List.mem_map.mp he1
      obtain ⟨pr2, hpr2, hb2⟩ := List.mem_flatMap.mp hb
      obtain ⟨n2, hn2, hb3⟩ := List.mem_flatMap.mp hb2
      obtain ⟨e2, he2, rfl⟩ := List.mem_map.mp hb3
      obtain ⟨q2, hq2, rfl⟩ := List.mem_map.mp he2
      exact h pr1.1 (by rw [← hfst]; exact List.mem_map_of_mem Prod.fst hpr1)
        pr2.1 (by rw [← hfst]; exact List.mem_map_of_mem Prod.fst hpr2)
        n1 hn1 n2 hn2 q1 hq1 q2 hq2
  rw [h2, h3, h4, h5, h6]
  constructor
  · rintro ⟨-, hB, hC, hD, hE, hF, hG⟩
    exact ⟨hL, hB, hC, fun s hs n hn q hq => (hE s hs n hn q hq).2,
      hD, fun s hs n hn q hq => (hE s hs n hn q hq).1, hF, hG⟩
  · rintro ⟨-, hB, hC, hneg, hnode, hzero, hF, hG⟩
    exact ⟨hL, hB, hC, hnode,
      fun s hs n hn q hq => ⟨hzero s hs n hn q hq, hneg s hs n hn q hq⟩, hF, hG⟩

theorem checkNodes_some_nodeSizes {V : Type} (fk : FeatKind V) :
    ∀ (ns : List (GNode V)) (st st' : Option ℕ × Option ℕ),
    checkNodes fk st ns = some st' → ∀ n ∈ ns, fk.size n.data ≠ 0 := by
  intro ns
  induction ns with
  | nil =>
    intro st st' _ n hn
    simp at hn
  | cons n ns ih =>
    intro st st' hsome m hm
    by_cases h0 : fk.size n.data = 0
    · rw [show checkNodes fk st (n :: ns) = none by simp [checkNodes, h0]] at hsome
      exact Option.noConfusion hsome
    · rcases List.mem_cons.mp hm with rfl | hm'
      · exact h0
      · have hred : checkNodes fk st (n :: ns)
            = (if fk.ismat && !((if fk.ismat && st.1.isNone
                  then some (fk.size n.data) else st.1) == some (fk.size n.data))
               then none
               else match checkEdgeVects fk st.2 (n.neighbors.map Prod.snd) with
                    | none => none
                    | some ed1 => checkNodes fk
                        ((if fk.ismat && st.1.isNone
                          then some (fk.size n.data) else st.1), ed1) ns) := by
          simp [checkNodes, h0]
        rw [hred] at hsome
        set nd1 := (if fk.ismat && st.1.isNone
          then some (fk.size n.data) else st.1) with hnd1
        split at hsome
        · exact Option.noConfusion hsome
        · split at hsome
          · exact Option.noConfusion hsome
          · exact ih _ _ hsome m hm'

theorem checkSamples_some_nodeSizes {V : Type} (fk : FeatKind V) :
    ∀ (prs : List (GSample V × List ℕ)) (st st' : Option ℕ × Option ℕ),
    checkSamples fk st prs = some st' →
      ∀ pr ∈ prs, ∀ n ∈ pr.1.nodes, fk.size n.data ≠ 0 := by
  intro prs
  induction prs with
  | nil =>
    intro st st' _ pr hpr
    simp at hpr
  | cons pr rest ih =>
    obtain ⟨s, l⟩ := pr
    intro st st' hsome pr' hpr'
    have hred : checkSamples fk st ((s, l) :: rest)
        = (if !(s.nodes.length == l.length) then none
           else if graph_contains_length_one_cycle s then none
           else match checkNodes fk st s.nodes with
                | none => none
                | some st1 => checkSamples fk st1 rest) := rfl
    rw [hred] at hsome
    split at hsome
    · exact Option.noConfusion hsome
    · split at hsome
      · exact Option.noConfusion hsome
      · rcases List.mem_cons.mp hpr' with rfl | hm'
        · split at hsome
          · exact Option.noConfusion hsome
          · rename_i st1 hN
            exact checkNodes_some_nodeSizes fk s.nodes st st1 hN
        · split at hsome
          · exact Option.noConfusion hsome
          · exact ih _ _ hsome pr' hm'

/-- A two-node sparse sample whose single undirected edge carries an empty
sparse feature vector (both endpoints list the edge, as in a dlib graph). -/
def cexSparseSample : GSample (List (ℕ × ℚ)) :=
  ⟨[⟨[(0, 1)], [(1, [])]⟩,
    ⟨[(0, 1)], [(0, [])]⟩]⟩

/-- C6 counterexample: under the sparse representation a dataset with a
zero-length edge-feature vector is accepted: the `size == 0` test on edge
vectors is guarded by `is_matrix`, so it is skipped, and `min` of an empty
sparse vector is 0, which is not negative. -/
theorem C6_counterexample_sparse_empty_edge :
    (∃ nd ∈ cexSparseSample.nodes, ∃ q ∈ nd.neighbors, q.2.length = 0)
    ∧ is_graph_labeling_problem fkSparse [cexSparseSample] [[0, 0]] = true := by
  constructor
  · exact ⟨⟨[(0, 1)], [(1, [])]⟩, by simp [cexSparseSample], (1, []),
      by simp, rfl⟩
  · simp [is_graph_labeling_problem, is_learning_problem, cexSparseSample, fkSparse,
      checkSamples, checkNodes, checkEdgeVects, graph_contains_length_one_cycle,
      minSparse, List.enum, List.enumFrom]

/-- C6 (amended): the validator returns false whenever any node-feature
vector has zero length (under both representations), and whenever any
edge-feature vector has zero length under the dense representation; under
the sparse representation a zero-length edge vector is not rejected (see
the counterexample). -/
theorem C6_zero_size_vector_rejection :
    (∀ (samples : List (GSample (List ℚ))) (labels : List (List ℕ)),
      ((∃ s ∈ samples, ∃ n ∈ s.nodes, n.data.length = 0)
        ∨ (∃ s ∈ samples, ∃ n ∈ s.nodes, ∃ q ∈ n.neighbors, q.2.length = 0)) →
      is_graph_labeling_problem fkDense samples labels = false)
    ∧ (∀ (samples : List (GSample (List (ℕ × ℚ)))) (labels : List (List ℕ)),
      (∃ s ∈ samples, ∃ n ∈ s.nodes, n.data.length = 0) →
      is_graph_labeling_problem fkSparse samples labels = false) := by
  constructor
  · intro samples labels hbad
    cases hv : is_graph_labeling_problem fkDense samples labels with
    | false => rfl
    | true =>
      exfalso
      have hv' := hv
      unfold is_graph_labeling_problem at hv'
      rw [Bool.and_eq_true] at hv'
      obtain ⟨hL, hS⟩ := hv'
      have hlen : samples.length = labels.length := by
        unfold is_learning_problem at hL
        rw [Bool.and_eq_true] at hL
        simpa using hL.1
      have hfst : (samples.zip labels).map Prod.fst = samples :=
        List.map_fst_zip _ _ (le_of_eq hlen)
      rw [Option.isSome_iff_exists] at hS
      obtain ⟨st', hst⟩ := hS
      obtain ⟨-, -, hnode, hedge, -, -, -⟩ :=
        (checkSamples_some_iff fkDense rfl (samples.zip labels) none none st').mp hst
      rcases hbad with ⟨s, hs, n, hn, hd⟩ | ⟨s, hs, n, hn, q, hq, hd⟩
      · rw [← hfst] at hs
        obtain ⟨pr, hpr, hp1⟩ := List.mem_map.mp hs
        exact hnode pr hpr n (by rw [hp1]; exact hn) hd
      · rw [← hfst] at hs
        obtain ⟨pr, hpr, hp1⟩ := List.mem_map.mp hs
        exact (hedge pr hpr n (by rw [hp1]; exact hn) q hq).1 hd
  · intro samples labels hbad
    cases hv : is_graph_labeling_problem fkSparse samples labels with
    | false => rfl
    | true =>
      exfalso
      have hv' := hv
      unfold is_graph_labeling_problem at hv'
      rw [Bool.and_eq_true] at hv'
      obtain ⟨hL, hS⟩ := hv'
      have hlen : samples.length = labels.length := by
        unfold is_learning_problem at hL
        rw [Bool.and_eq_true] at hL
        simpa using hL.1
      have hfst : (samples.zip labels).map Prod.fst = samples :=
        List.map_fst_zip _ _ (le_of_eq hlen)
      rw [Option.isSome_iff_exists] at hS
      obtain ⟨st', hst⟩ := hS
      obtain ⟨s, hs, n, hn, hd⟩ := hbad
      rw [← hfst] at hs
      obtain ⟨pr, hpr, hp1⟩ := List.mem_map.mp hs
      exact checkSamples_some_nodeSizes fkSparse (samples.zip labels)
        (none, none) st' hst pr hpr n (by rw [hp1]; exact hn) hd

/-- C6 witness: a dense dataset whose single node vector is empty is
rejected, and a sparse dataset whose single node vector is empty is
rejected. -/
theorem C6_zero_size_vector_rejection_witness :
    is_graph_labeling_problem fkDense
      [(⟨[⟨[], []⟩]⟩ : GSample (List ℚ))] [[0]] = false
    ∧ is_graph_labeling_problem fkSparse
      [(⟨[⟨[], []⟩]⟩ : GSample (List (ℕ × ℚ)))] [[0]] = false :=
  ⟨C6_zero_size_vector_rejection.1 [⟨[⟨[], []⟩]⟩] [[0]]
      (Or.inl ⟨⟨[⟨[], []⟩]⟩, by simp, ⟨[], []⟩, by simp, rfl⟩),
   C6_zero_size_vector_rejection.2 [⟨[⟨[], []⟩]⟩] [[0]]
      ⟨⟨[⟨[], []⟩]⟩, by simp, ⟨[], []⟩, by simp, rfl⟩⟩

/-
## The validator on sparse datasets

Under the sparse representation (`is_matrix` false) every dimension check
is skipped: the validator reduces to the learning-problem test, the
label-length and length-one-cycle tests, the unguarded zero-size test on
node vectors, and the `min(edge) < 0` test on edge vectors.
-/

/-- `¬ min(v) < 0` on a sparse vector says every stored value is
non-negative. -/
theorem not_minSparse_lt_iff (v : List (ℕ × ℚ)) :
    (¬ minSparse v < 0) ↔ ∀ p ∈ v, 0 ≤ p.2 := by
  rw [minSparse_lt_zero_iff]
  push_neg
  rfl

theorem checkEdgeVects_sparse_iff {V : Type} (fk : FeatKind V)
    (hm : fk.ismat = false) :
    ∀ (es : List V) (ed ed' : Option ℕ),
    checkEdgeVects fk ed es = some ed' ↔
      ((∀ e ∈ es, ¬ fk.minv e < 0) ∧ ed' = ed) := by
  intro es
  induction es with
  | nil =>
    intro ed ed'
    simp [checkEdgeVects, eq_comm]
  | cons e es ih =>
    intro ed ed'
    by_cases h1 : fk.minv e < 0
    · simp [checkEdgeVects, hm, h1, List.forall_mem_cons]
    · rw [show checkEdgeVects fk ed (e :: es) = checkEdgeVects fk ed es by
        simp [checkEdgeVects, hm, h1]]
      rw [ih ed ed']
      simp [List.forall_mem_cons, h1, not_lt.mp h1]

theorem checkNodes_sparse_iff {V : Type} (fk : FeatKind V)
    (hm : fk.ismat = false) :
    ∀ (ns : List (GNode V)) (d1 d2 : Option ℕ) (st' : Option ℕ × Option ℕ),
    checkNodes fk (d1, d2) ns = some st' ↔
      ((∀ n ∈ ns, fk.size n.data ≠ 0)
       ∧ (∀ n ∈ ns, ∀ q ∈ n.neighbors, ¬ fk.minv q.2 < 0)
       ∧ st' = (d1, d2)) := by
  intro ns
  induction ns with
  | nil =>
    intro d1 d2 st'
    simp [checkNodes, eq_comm]
  | cons n ns ih =>
    intro d1 d2 st'
    by_cases h0 : fk.size n.data = 0
    · simp [checkNodes, h0, List.forall_mem_cons]
    have hred : checkNodes fk (d1, d2) (n :: ns)
        = (match checkEdgeVects fk d2 (n.neighbors.map Prod.snd) with
           | none => none
           | some ed1 => checkNodes fk (d1, ed1) ns) := by
      simp [checkNodes, hm, h0]
    rw [hred]
    cases hE : checkEdgeVects fk d2 (n.neighbors.map Prod.snd) with
    | none =>
      constructor
      · intro hc
        exact Option.noConfusion hc
      · rintro ⟨hA, hB, hst⟩
        have hsome := (checkEdgeVects_sparse_iff fk hm
          (n.neighbors.map Prod.snd) d2 d2).mpr
          ⟨List.forall_mem_map.mpr (hB n (List.mem_cons_self _ _)), rfl⟩
        rw [hE] at hsome
        exact Option.noConfusion hsome
    | some ed1 =>
      obtain ⟨hel, hed⟩ :=
        (checkEdgeVects_sparse_iff fk hm (n.neighbors.map Prod.snd) d2 ed1).mp hE
      have hel' : ∀ q ∈ n.neighbors, ¬ fk.minv q.2 < 0 := fun q hq =>
        hel q.2 (List.mem_map_of_mem Prod.snd hq)
      rw [hed, ih d1 d2 st']
      constructor
      · rintro ⟨hA, hB, hst⟩
        exact ⟨List.forall_mem_cons.mpr ⟨h0, hA⟩,
          List.forall_mem_cons.mpr ⟨hel', hB⟩, hst⟩
      · rintro ⟨hA, hB, hst⟩
        exact ⟨(List.forall_mem_cons.mp hA).2, (List.forall_mem_cons.mp hB).2, hst⟩

theorem checkSamples_sparse_iff {V : Type} (fk : FeatKind V)
    (hm : fk.ismat = false) :
    ∀ (prs : List (GSample V × List ℕ)) (d1 d2 : Option ℕ)
      (st' : Option ℕ × Option ℕ),
    checkSamples fk (d1, d2) prs = some st' ↔
      ((∀ pr ∈ prs, pr.1.nodes.length = pr.2.length)
       ∧ (∀ pr ∈ prs, graph_contains_length_one_cycle pr.1 = false)
       ∧ (∀ pr ∈ prs, ∀ n ∈ pr.1.nodes, fk.size n.data ≠ 0)
       ∧ (∀ pr ∈ prs, ∀ n ∈ pr.1.nodes, ∀ q ∈ n.neighbors, ¬ fk.minv q.2 < 0)
       ∧ st' = (d1, d2)) := by
  intro prs
  induction prs with
  | nil =>
    intro d1 d2 st'
    rw [show checkSamples fk (d1, d2) [] = some (d1, d2) from rfl]
    constructor
    · intro hc
      obtain rfl := Option.some_inj.mp hc
      exact ⟨by simp, by simp, by simp, by simp, rfl⟩
    · rintro ⟨-, -, -, -, hst⟩
      rw [hst]
  | cons pr rest ih =>
    obtain ⟨s, l⟩ := pr
    intro d1 d2 st'
    by_cases hlen : s.nodes.length = l.length
    case neg =>
      rw [show checkSamples fk (d1, d2) ((s, l) :: rest) = none by
        simp [checkSamples, hlen]]
      constructor
      · intro hc
        exact Option.noConfusion hc
      · rintro ⟨hA, -, -, -, -⟩
        exact absurd (hA (s, l) (List.mem_cons_self _ _)) hlen
    case pos =>
    by_cases hcyc : graph_contains_length_one_cycle s = true
    case pos =>
      rw [show checkSamples fk (d1, d2) ((s, l) :: rest) = none by
        simp [checkSamples, hlen, hcyc]]
      constructor
      · intro hc
        exact Option.noConfusion hc
      · rintro ⟨-, hB, -, -, -⟩
        have := hB (s, l) (List.mem_cons_self _ _)
        rw [hcyc] at this
        exact Bool.noConfusion this
    case neg =>
    have hred : checkSamples fk (d1, d2) ((s, l) :: rest)
        = (match checkNodes fk (d1, d2) s.nodes with
           | none => none
           | some st1 => checkSamples fk st1 rest) := by
      simp [checkSamples, hlen, hcyc]
    rw [hred]
    cases hN : checkNodes fk (d1, d2) s.nodes with
    | none =>
      constructor
      · intro hc
        exact Option.noConfusion hc
      · rintro ⟨-, -, hC, hD, -⟩
        have hsome := (checkNodes_sparse_iff fk hm s.nodes d1 d2 (d1, d2)).mpr
          ⟨hC (s, l) (List.mem_cons_self _ _),
           hD (s, l) (List.mem_cons_self _ _), rfl⟩
        rw [hN] at hsome
        exact Option.noConfusion hsome
    | some st1 =>
      obtain ⟨hn1, hn2, hst1⟩ := (checkNodes_sparse_iff fk hm s.nodes d1 d2 st1).mp hN
      subst hst1
      rw [ih d1 d2 st']
      constructor
      · rintro ⟨hA, hB, hC, hD, hst⟩
        exact ⟨List.forall_mem_cons.mpr ⟨hlen, hA⟩,
          List.forall_mem_cons.mpr ⟨Bool.eq_false_iff.mpr hcyc, hB⟩,
          List.forall_mem_cons.mpr ⟨hn1, hC⟩,
          List.forall_mem_cons.mpr ⟨hn2, hD⟩, hst⟩
      · rintro ⟨hA, hB, hC, hD, hst⟩
        exact ⟨(List.forall_mem_cons.mp hA).2, (List.forall_mem_cons.mp hB).2,
          (List.forall_mem_cons.mp hC).2, (List.forall_mem_cons.mp hD).2, hst⟩

/-- The sparse validator accepts exactly the datasets that form a learning
problem in which every label vector matches its sample's node count, no
sample has a self-referencing edge, no node-feature vector is empty, and
every stored edge-feature value is non-negative: all dimension checks and
the edge zero-size check are skipped when `is_matrix` is false. -/
theorem sparse_validator_accepts_iff
    (samples : List (GSample (List (ℕ × ℚ)))) (labels : List (List ℕ)) :
    is_graph_labeling_problem fkSparse samples labels = true ↔
      (is_learning_problem samples labels = true
       ∧ (∀ pr ∈ samples.zip labels, pr.1.nodes.length = pr.2.length)
       ∧ (∀ s ∈ samples, graph_contains_length_one_cycle s = false)
       ∧ (∀ s ∈ samples, ∀ n ∈ s.nodes, n.data.length ≠ 0)
       ∧ (∀ s ∈ samples, ∀ n ∈ s.nodes, ∀ q ∈ n.neighbors, ∀ p ∈ q.2, 0 ≤ p.2)) := by
  unfold is_graph_labeling_problem
  rw [Bool.and_eq_true]
  by_cases hL : is_learning_problem samples labels = true
  case neg => simp [hL]
  case pos =>
  have hlen : samples.length = labels.length := by
    unfold is_learning_problem at hL
    rw [Bool.and_eq_true] at hL
    simpa using hL.1
  have hfst : (samples.zip labels).map Prod.fst = samples :=
    List.map_fst_zip _ _ (le_of_eq hlen)
  have hmemS : ∀ s : GSample (List (ℕ × ℚ)),
      s ∈ samples ↔ ∃ pr ∈ samples.zip labels, pr.1 = s := by
    intro s
    conv_lhs => rw [← hfst]
    exact List.mem_map
  have hbr : ∀ P : GSample (List (ℕ × ℚ)) → Prop,
      (∀ pr ∈ samples.zip labels, P pr.1) ↔ (∀ s ∈ samples, P s) := by
    intro P
    constructor
    · intro h s hs
      obtain ⟨pr, hpr, hpr1⟩ := (hmemS s).mp hs
      rw [← hpr1]
      exact h pr hpr
    · intro h pr hpr
      apply h
      rw [← hfst]
      exact List.mem_map_of_mem Prod.fst hpr
  have hkey : ((checkSamples fkSparse (none, none) (samples.zip labels)).isSome
      = true) ↔
      ((∀ pr ∈ samples.zip labels, pr.1.nodes.length = pr.2.length)
       ∧ (∀ pr ∈ samples.zip labels,
            graph_contains_length_one_cycle pr.1 = false)
       ∧ (∀ pr ∈ samples.zip labels, ∀ n ∈ pr.1.nodes,
            fkSparse.size n.data ≠ 0)
       ∧ (∀ pr ∈ samples.zip labels, ∀ n ∈ pr.1.nodes, ∀ q ∈ n.neighbors,
            ¬ fkSparse.minv q.2 < 0)) := by
    rw [Option.isSome_iff_exists]
    constructor
    · rintro ⟨st', hst⟩
      obtain ⟨a, b, c, d, _⟩ :=
        (checkSamples_sparse_iff fkSparse rfl (samples.zip labels)
          none none st').mp hst
      exact ⟨a, b, c, d⟩
    · rintro ⟨a, b, c, d⟩
      exact ⟨_, (checkSamples_sparse_iff fkSparse rfl (samples.zip labels)
        none none _).mpr ⟨a, b, c, d, rfl⟩⟩
  rw [hkey]
  have h2 : (∀ pr ∈ samples.zip labels,
      graph_contains_length_one_cycle pr.1 = false)
      ↔ (∀ s ∈ samples, graph_contains_length_one_cycle s = false) :=
    hbr (fun s => graph_contains_length_one_cycle s = false)
  have h3 : (∀ pr ∈ samples.zip labels, ∀ n ∈ pr.1.nodes,
      fkSparse.size n.data ≠ 0)
      ↔ (∀ s ∈ samples, ∀ n ∈ s.nodes, n.data.length ≠ 0) :=
    hbr (fun s => ∀ n ∈ s.nodes, n.data.length ≠ 0)
  have h4 : (∀ pr ∈ samples.zip labels, ∀ n ∈ pr.1.nodes, ∀ q ∈ n.neighbors,
      ¬ fkSparse.minv q.2 < 0)
      ↔ (∀ s ∈ samples, ∀ n ∈ s.nodes, ∀ q ∈ n.neighbors, ∀ p ∈ q.2, 0 ≤ p.2) := by
    rw [hbr (fun s => ∀ n ∈ s.nodes, ∀ q ∈ n.neighbors,
      ¬ fkSparse.minv q.2 < 0)]
    constructor
    · intro h s hs n hn q hq
      exact (not_minSparse_lt_iff q.2).mp (h s hs n hn q hq)
    · intro h s hs n hn q hq
      exact (not_minSparse_lt_iff q.2).mpr (h s hs n hn q hq)
  rw [h2, h3, h4]

/-- A one-node sparse sample whose node feature vector is empty. -/
def cexSparseNodeSample : GSample (List (ℕ × ℚ)) :=
  ⟨[⟨[], []⟩]⟩

/-- C5 counterexample: a sparse dataset that satisfies every
representation-independent condition of the claim — it is a well-formed
learning problem, the label vector matches the node count, there is no
self-referencing edge, and no edge-feature entry is negative (there are no
edges) — yet the validator returns false, because the zero-size test on
node vectors (line 80) is not guarded by `is_matrix`.  The claimed
biconditional therefore fails on sparse datasets. -/
theorem C5_counterexample_sparse_empty_node_vector :
    is_learning_problem [cexSparseNodeSample] [[0]] = true
    ∧ (∀ pr ∈ [cexSparseNodeSample].zip [[0]],
        pr.1.nodes.length = pr.2.length)
    ∧ (∀ s ∈ [cexSparseNodeSample], graph_contains_length_one_cycle s = false)
    ∧ (∀ s ∈ [cexSparseNodeSample], ∀ n ∈ s.nodes, ∀ q ∈ n.neighbors,
        ∀ p ∈ q.2, 0 ≤ p.2)
    ∧ is_graph_labeling_problem fkSparse [cexSparseNodeSample] [[0]] = false := by
  refine ⟨rfl, ?_, ?_, ?_, ?_⟩
  · intro pr hpr
    simp only [List.zip_cons_cons, List.zip_nil_right, List.mem_singleton] at hpr
    rw [hpr]
    rfl
  · intro s hs
    simp only [List.mem_singleton] at hs
    rw [hs]
    rfl
  · intro s hs n hn q hq
    simp only [List.mem_singleton] at hs
    rw [hs] at hn
    simp only [cexSparseNodeSample, List.mem_singleton] at hn
    rw [hn] at hq
    simp at hq
  · simp [is_graph_labeling_problem, is_learning_problem, cexSparseNodeSample,
      fkSparse, checkSamples, checkNodes, checkEdgeVects,
      graph_contains_length_one_cycle, List.enum, List.enumFrom]

/-- C5 (amended): for every dataset, the validator accepts iff the pair is
a well-formed learning problem, every sample's label-vector length equals
its node count, no sample contains a self-referencing edge, no
edge-feature entry is negative, no node-feature vector has zero length,
and — for the dense representation only — all node vectors share one
dimensionality, all edge vectors share one dimensionality, and no
edge-feature vector has zero length. -/
theorem C5_is_graph_labeling_problem_iff_amended :
    (∀ (samples : List (GSample (List ℚ))) (labels : List (List ℕ)),
      is_graph_labeling_problem fkDense samples labels = true ↔
        (is_learning_problem samples labels = true
         ∧ (∀ pr ∈ samples.zip labels, pr.1.nodes.length = pr.2.length)
         ∧ (∀ s ∈ samples, graph_contains_length_one_cycle s = false)
         ∧ (∀ s ∈ samples, ∀ n ∈ s.nodes, ∀ q ∈ n.neighbors, ∀ x ∈ q.2, 0 ≤ x)
         ∧ (∀ s ∈ samples, ∀ n ∈ s.nodes, n.data.length ≠ 0)
         ∧ (∀ s ∈ samples, ∀ n ∈ s.nodes, ∀ q ∈ n.neighbors, q.2.length ≠ 0)
         ∧ (∀ s1 ∈ samples, ∀ s2 ∈ samples, ∀ n1 ∈ s1.nodes, ∀ n2 ∈ s2.nodes,
              n1.data.length = n2.data.length)
         ∧ (∀ s1 ∈ samples, ∀ s2 ∈ samples, ∀ n1 ∈ s1.nodes, ∀ n2 ∈ s2.nodes,
              ∀ q1 ∈ n1.neighbors, ∀ q2 ∈ n2.neighbors,
              q1.2.length = q2.2.length)))
    ∧ (∀ (samples : List (GSample (List (ℕ × ℚ)))) (labels : List (List ℕ)),
      is_graph_labeling_problem fkSparse samples labels = true ↔
        (is_learning_problem samples labels = true
         ∧ (∀ pr ∈ samples.zip labels, pr.1.nodes.length = pr.2.length)
         ∧ (∀ s ∈ samples, graph_contains_length_one_cycle s = false)
         ∧ (∀ s ∈ samples, ∀ n ∈ s.nodes, n.data.length ≠ 0)
         ∧ (∀ s ∈ samples, ∀ n ∈ s.nodes, ∀ q ∈ n.neighbors,
              ∀ p ∈ q.2, 0 ≤ p.2))) :=
  ⟨fun samples labels => dense_validator_accepts_iff samples labels,
   fun samples labels => sparse_validator_accepts_iff samples labels⟩

end DlibGraphLabeling
